import Mathlib

/-!
# Verification of the `pq` package (priority queue + frame ring buffer)

A shallow embedding of the two data structures of the `pq` repository:

* `tfbuf.go` — `FrameRingBuf`, a fixed-size circular buffer of `*tm.Frame`
  pointers, with operations `NewFrameRingBuf`, `TwoContig`, `RingReadFrames`,
  `RingReadWithoutAdvance`, `RingWriteFrames`, `Reset`, `Advance`, `Adopt`.
* `pq.go` — `PriorityQueue`, a `container/heap` min-heap of `*Pqe` entries
  keyed by a `time.Time` derived from the frame timestamp, with operations
  `Add`, `Update`, `First`, and (via the Go stdlib driver `container/heap`)
  `heap.Pop`, `heap.Fix`, `heap.Init`.

Go machine integers are modelled as `Nat`/`Int` (every branch of the source
that could make signed/unsigned arithmetic diverge is guarded the same way
the source guards it, noted at each definition).  Fallible operations —
Go slice expressions whose bounds can exceed capacity, `%` by zero, and
out-of-range indexing — return `Option`, with `none` standing for the Go
runtime panic.
-/

/-- Model of `tm.Frame` (`github.com/glycerine/tmframe`).  The package under
verification only interprets `Frame.Tm()`, the frame timestamp in
nanoseconds (an `int64`); everything else is opaque payload. -/
structure Frame where
  tm : Int
  payload : Nat
deriving DecidableEq

/-- A Go `*tm.Frame`: either `nil` (`none`) or a pointer to a frame. -/
abbrev FramePtr := Option Frame

/-- The two `io` package error values the source returns:
`io.EOF` and `io.ErrShortWrite`. -/
inductive IOErr where
  | eof : IOErr
  | errShortWrite : IOErr
deriving DecidableEq

/-- Go slice expression `l[lo:hi]` on a slice whose capacity equals its
length (`make([]*tm.Frame, n, n)` gives `len = cap = n`).  Go requires
`0 ≤ lo ≤ hi ≤ cap`; outside those bounds the program panics (`none`). -/
def slice? (l : List α) (lo hi : Nat) : Option (List α) :=
  if lo ≤ hi ∧ hi ≤ l.length then some ((l.take hi).drop lo) else none

/-- Write the elements of `q` into `l` starting at position `s`
(positions past the end of `l` are dropped, matching how the callers
below always bound `q` by the destination window first). -/
def setSeg (l : List α) (s : Nat) (q : List α) : List α :=
  match q with
  | [] => l
  | x :: xs => setSeg (l.set s x) (s + 1) xs

/-- Go `copy(dst, src)`: writes `min (len dst) (len src)` elements of
`src` into `dst` from position 0 and returns that count. -/
def goCopy (dst src : List α) : Nat × List α :=
  (min dst.length src.length, setSeg dst 0 (src.take dst.length))

/-- `FrameRingBuf` (tfbuf.go): a fixed-size circular ring buffer of
`*tm.Frame`.  `A` is the backing array, `N` its total size, `Beg` the
start of in-use data, `Readable` the number of pointers in use. -/
structure FrameRingBuf where
  A : List FramePtr
  N : Nat
  Beg : Nat
  Readable : Nat
deriving DecidableEq

/-- `NewFrameRingBuf(maxSize)`: allocates `A = make([]*tm.Frame, n, n)`
(`n` nil pointers), `Beg = 0`, `Readable = 0`. -/
def NewFrameRingBuf (maxSize : Nat) : FrameRingBuf :=
  { A := List.replicate maxSize none, N := maxSize, Beg := 0, Readable := 0 }

/-- `TwoContig(makeCopy)`: returns all readable pointers in two separate
slices.  The source computes `extent := b.Beg + b.Readable` and, in the
wrapped case, evaluates the slice expression `b.A[b.Beg:(b.Beg+b.Readable)]`
— whose high bound exceeds `cap(b.A)` whenever `extent > b.N = cap(b.A)`,
a runtime panic (`none`).  The `makeCopy` argument is ignored by the
source and is ignored here. -/
def TwoContig (b : FrameRingBuf) (makeCopy : Bool) :
    Option (List FramePtr × List FramePtr) :=
  if b.Beg + b.Readable ≤ b.N then
    (slice? b.A b.Beg (b.Beg + b.Readable)).map (fun first => (first, ([] : List FramePtr)))
  else
    match slice? b.A b.Beg (b.Beg + b.Readable) with
    | none => none
    | some first =>
      if b.N = 0 then none
      else (slice? b.A 0 ((b.Beg + b.Readable) % b.N)).map (fun second => (first, second))

/-- `Advance(n)`: consume up to `n` readable slots.  `n` is a Go `int`
(hence `Int` here): non-positive `n` is a no-op, larger `n` is clamped to
`Readable`.  When `b.N = 0` the assignment `b.Beg = (b.Beg + n) % b.N`
divides by zero, a runtime panic (`none`). -/
def Advance (b : FrameRingBuf) (n : Int) : Option FrameRingBuf :=
  if n ≤ 0 then some b
  else
    let m : Nat := if (b.Readable : Int) < n then b.Readable else n.toNat
    if b.N = 0 then none
    else some { b with Readable := b.Readable - m, Beg := (b.Beg + m) % b.N }

/-- The common tail of `readAndMaybeAdvance`: optionally advance past the
`n` pointers just read, and return `(n, nil)` together with the filled
output slice and the updated buffer. -/
def finishRead (b : FrameRingBuf) (p : List FramePtr) (n : Nat) (doAdvance : Bool) :
    Option (Nat × Option IOErr × List FramePtr × FrameRingBuf) :=
  if doAdvance then (Advance b (n : Int)).map (fun b2 => (n, none, p, b2))
  else some (n, none, p, b)

/-- `readAndMaybeAdvance(p, doAdvance)` (tfbuf.go): the shared body of
`RingReadFrames` and `RingReadWithoutAdvance`.  Returns the count read,
the returned error (`io.EOF` or `nil`), the filled output slice, and the
updated buffer. -/
def readAndMaybeAdvance (b : FrameRingBuf) (p : List FramePtr) (doAdvance : Bool) :
    Option (Nat × Option IOErr × List FramePtr × FrameRingBuf) :=
  if p.length = 0 then some (0, none, p, b)
  else if b.Readable = 0 then some (0, some IOErr.eof, p, b)
  else if b.Beg + b.Readable ≤ b.N then
    match slice? b.A b.Beg (b.Beg + b.Readable) with
    | none => none
    | some src =>
      finishRead b (goCopy p src).2 (goCopy p src).1 doAdvance
  else
    match slice? b.A b.Beg b.N with
    | none => none
    | some src1 =>
      if (goCopy p src1).1 < p.length then
        if b.N = 0 then none
        else
          match slice? b.A 0 ((b.Beg + b.Readable) % b.N) with
          | none => none
          | some src2 =>
            finishRead b
              (setSeg (goCopy p src1).2 (goCopy p src1).1
                (src2.take (p.length - (goCopy p src1).1)))
              ((goCopy p src1).1 + min (p.length - (goCopy p src1).1) src2.length) doAdvance
      else finishRead b (goCopy p src1).2 (goCopy p src1).1 doAdvance

/-- `RingReadFrames(p)`: read and advance. -/
def RingReadFrames (b : FrameRingBuf) (p : List FramePtr) :
    Option (Nat × Option IOErr × List FramePtr × FrameRingBuf) :=
  readAndMaybeAdvance b p true

/-- `RingReadWithoutAdvance(p)`: read without consuming. -/
def RingReadWithoutAdvance (b : FrameRingBuf) (p : List FramePtr) :
    Option (Nat × Option IOErr × List FramePtr × FrameRingBuf) :=
  readAndMaybeAdvance b p false

/-- One iteration of the copy loop inside `RingWriteFrames`: computes
`writeStart := (b.Beg + b.Readable) % b.N`,
`upperLim := intMin(writeStart + writeCapacity, b.N)`, performs
`k := copy(b.A[writeStart:upperLim], p)` and returns `k` with the buffer
after `b.Readable += k`.  (`intMin` is the integer minimum used by the
source.)  Reached only when `writeCapacity = b.N - b.Readable > 0`; the
`b.N = 0` test models the division-by-zero panic of `%` (unreachable from
that guard) and the slice test models the capacity bound of the slice
expression. -/
def writeStep (b : FrameRingBuf) (p : List FramePtr) : Option (Nat × FrameRingBuf) :=
  if b.N = 0 then none
  else
    let writeStart := (b.Beg + b.Readable) % b.N
    let upperLim := min (writeStart + (b.N - b.Readable)) b.N
    if b.A.length < upperLim then none
    else
      let k := min (upperLim - writeStart) p.length
      some (k, { b with A := setSeg b.A writeStart (p.take k), Readable := b.Readable + k })

/-- The `for` loop of `RingWriteFrames` (tfbuf.go).  `n` and `err` are the
accumulators of the source; each pass either returns or copies at least
one pointer, shortening the local slice `p`. -/
def ringWriteLoop (b : FrameRingBuf) (p : List FramePtr) (n : Nat) (err : Option IOErr) :
    Option (Nat × Option IOErr × FrameRingBuf) :=
  if hp : p.length = 0 then some (n, err, b)
  else if hcap : b.N - b.Readable = 0 then some (n, some IOErr.errShortWrite, b)
  else
    let err2 := if b.N - b.Readable < p.length then some IOErr.errShortWrite else err
    match hs : writeStep b p with
    | none => none
    | some (k, b2) =>
      ringWriteLoop b2 (p.drop k) (n + k) err2
termination_by p.length
decreasing_by
  simp only [List.length_drop]
  unfold writeStep at hs
  have hN : b.N ≠ 0 := by omega
  simp only [hN, if_false, ite_false] at hs
  by_cases hA : b.A.length < min ((b.Beg + b.Readable) % b.N + (b.N - b.Readable)) b.N
  · simp [hA] at hs
  · simp only [hA, if_false, ite_false, Option.some.injEq, Prod.mk.injEq] at hs
    have hlt : (b.Beg + b.Readable) % b.N < b.N := Nat.mod_lt _ (by omega)
    omega

/-- `RingWriteFrames(p)`: write the pointers of `p` into the ring,
returning the count written and the error (`nil` or `io.ErrShortWrite`),
plus the updated buffer. -/
def RingWriteFrames (b : FrameRingBuf) (p : List FramePtr) :
    Option (Nat × Option IOErr × FrameRingBuf) :=
  ringWriteLoop b p 0 none

/-- `Reset()`: forget any data in the ring (`Beg = 0`, `Readable = 0`). -/
def Reset (b : FrameRingBuf) : FrameRingBuf :=
  { b with Beg := 0, Readable := 0 }

/-- `Adopt(me)`: if `len(me) > b.N` adopt `me` as the new backing array
(capacity `len(me)`, `Beg = 0`, `Readable = len(me)`); otherwise
`copy(b.A, me)` into the existing backing array and set `Beg = 0`,
`Readable = len(me)`. -/
def Adopt (b : FrameRingBuf) (me : List FramePtr) : FrameRingBuf :=
  if b.N < me.length then
    { A := me, N := me.length, Beg := 0, Readable := me.length }
  else
    { b with A := (goCopy b.A me).2, Beg := 0, Readable := me.length }

/-- The structural ring-buffer invariant: the backing array has exactly
`N` slots, at most `N` of them are in use, and the start index is inside
the array whenever it is non-empty. -/
def RingInv (b : FrameRingBuf) : Prop :=
  b.A.length = b.N ∧ b.Readable ≤ b.N ∧ (0 < b.N → b.Beg < b.N)

instance : DecidablePred RingInv := fun b => by
  unfold RingInv; infer_instance

/-- The pointers currently readable, oldest first: slot `t` of the
readable region lives at index `(Beg + t) % N` of the backing array. -/
def readableSlots (b : FrameRingBuf) : List FramePtr :=
  (List.range b.Readable).map (fun t => b.A.getD ((b.Beg + t) % b.N) none)

/-! ## Priority queue (pq.go, driven by the Go stdlib `container/heap`)

`time.Time` values built by `time.Unix(0, frame.Tm())` compare by their
nanosecond count, so `OrderBy` is embedded as the `Int` of nanoseconds and
`(OrderBy).Before` as `<` on `Int`.  `Pqe` values are heap-allocated and
handled through pointers in Go; the embedding stores them by value in the
backing sequence `Seq : List Pqe`, and a caller-retained handle is
identified by the entry's current position (the `Idx` field tracks it,
which is exactly the `IdxOk` invariant below). -/

namespace PQ

/-- `Pqe` (pq.go): a priority-queue entry: the frame value, the `OrderBy`
timestamp (nanoseconds) and the live heap index `Idx` (an `int`, since the
detached sentinel is `-1`). -/
structure Pqe where
  val : Frame
  orderBy : Int
  idx : Int
deriving DecidableEq

/-- Default entry used to express Go indexing `pq.Seq[k]` via `getD`;
every theorem below only evaluates `getD` in bounds. -/
def dPqe : Pqe := { val := { tm := 0, payload := 0 }, orderBy := 0, idx := 0 }

/-- The order key stored at position `i` of the backing sequence. -/
def kOf (s : List Pqe) (i : Nat) : Int := (s.getD i dPqe).orderBy

/-- `Less(i, j) = pq.Seq[i].OrderBy.Before(pq.Seq[j].OrderBy)`. -/
abbrev Less (s : List Pqe) (i j : Nat) : Prop := kOf s i < kOf s j

/-- `Swap(i, j)`: swap the two entries, then set `Seq[i].Idx = i` and
`Seq[j].Idx = j` (both reads happen before the writes). -/
def Swap (s : List Pqe) (i j : Nat) : List Pqe :=
  (s.set i { s.getD j dPqe with idx := (i : Int) }).set j
    { s.getD i dPqe with idx := (j : Int) }

/-- `container/heap.up(h, j)`: sift the entry at `j` towards the root
while it is `Less` than its parent `(j-1)/2`.  At `j = 0` Go computes the
parent `(0-1)/2 = 0 = j` and stops before any element access; for `j > 0`
the `Less` call reads `Seq[j]`, which panics (`none`) when `j` is out of
range — no caller below reaches that case. -/
def up (s : List Pqe) (j : Nat) : Option (List Pqe) :=
  if j = 0 then some s
  else if s.length ≤ j then none
  else if Less s j ((j - 1) / 2) then up (Swap s ((j - 1) / 2) j) ((j - 1) / 2)
  else some s
termination_by j
decreasing_by omega

/-- The child of `i` selected by `container/heap.down` under bound `n`:
the left child `2i+1`, or the right child `2i+2` when it exists and is
`Less` than the left. -/
def child (s : List Pqe) (i n : Nat) : Nat :=
  if 2 * i + 2 < n ∧ Less s (2 * i + 2) (2 * i + 1) then 2 * i + 2 else 2 * i + 1

/-- `container/heap.down(h, i0, n)`: sift the entry at `i0` down within
the first `n` positions, swapping with the smaller child while that child
is `Less`.  Returns the final position as well (Go returns `i > i0`,
i.e. whether the entry moved).  The `j1 < 0` overflow test of the source
cannot fire for `Nat` indices. -/
def down (s : List Pqe) (i n : Nat) : List Pqe × Nat :=
  if n ≤ 2 * i + 1 then (s, i)
  else if Less s (child s i n) i then down (Swap s i (child s i n)) (child s i n) n
  else (s, i)
termination_by n - i
decreasing_by
  have hc : 2 * i + 1 ≤ child s i n := by
    unfold child
    split
    · omega
    · omega
  omega

/-- `container/heap.Fix(h, i)`: `if !down(h, i, h.Len()) { up(h, i) }`.
`i` is a Go `int`.  At `i = -1` both `down` (via the `j1 < 0` test) and
`up` (parent `(-2)/2 = -1 = j` under Go truncated division) stop without
touching the sequence; for `i ≤ -2`, `up` reads a negative index and
panics (`none`) — no caller below reaches either case. -/
def Fix (s : List Pqe) (i : Int) : Option (List Pqe) :=
  if i = -1 then some s
  else if i < 0 then none
  else if i.toNat < (down s i.toNat s.length).2 then some (down s i.toNat s.length).1
  else up (down s i.toNat s.length).1 i.toNat

/-- The loop of `container/heap.Init(h)`: `down(h, i, n)` for
`i = n/2 - 1` down to `0` (the counter argument is `i + 1`). -/
def initAux (s : List Pqe) (n : Nat) : Nat → List Pqe
  | 0 => s
  | k + 1 => initAux (down s k n).1 n k

/-- `container/heap.Init(h)` with `n = h.Len()`. -/
def Init (s : List Pqe) : List Pqe := initAux s s.length (s.length / 2)

/-- `Len()`. -/
def Len (s : List Pqe) : Nat := s.length

/-- The failure kinds an extraction can be compared against.
`indexOutOfRange` is what the code actually produces on an empty queue: a
Go runtime panic from indexing `pq.Seq` out of range.  `emptyQueue` is
the explicit `EmptyQueue` error condition described by the specification
(§7); it exists here only as the comparison point for that description
and is never produced by the code. -/
inductive PqFailure where
  | indexOutOfRange : PqFailure
  | emptyQueue : PqFailure
deriving DecidableEq

/-- `First()` (pq.go): `return pq.Seq[0]` — on an empty queue the index
expression panics. -/
def First (s : List Pqe) : Except PqFailure Pqe :=
  if s.length = 0 then Except.error PqFailure.indexOutOfRange
  else Except.ok (s.getD 0 dPqe)

/-- `container/heap.Pop(h)` specialised to `*PriorityQueue`:
`n := Len()-1; Swap(0, n); down(0, n)`, then the `(*PriorityQueue).Pop`
method takes the last entry, marks `Idx = -1` "for safety", and shrinks
the sequence.  On an empty queue `n = -1` and `Swap(0, -1)` panics
(`none`). -/
def heapPop (s : List Pqe) : Option (Pqe × List Pqe) :=
  if s.length = 0 then none
  else
    some ({ (down (Swap s 0 (s.length - 1)) 0 (s.length - 1)).1.getD (s.length - 1) dPqe
              with idx := -1 },
      (down (Swap s 0 (s.length - 1)) 0 (s.length - 1)).1.take (s.length - 1))

/-- `heap.Pop` with the panic made explicit as a failure value, for
comparison with the specification's `EmptyQueue` error kind. -/
def heapPopE (s : List Pqe) : Except PqFailure (Pqe × List Pqe) :=
  match heapPop s with
  | none => Except.error PqFailure.indexOutOfRange
  | some r => Except.ok r

/-- `Add(frame)` (pq.go): build the entry with `OrderBy = Unix(0, Tm())`
and `Idx = len(Seq)`, append it, and `heap.Fix` at that index.  The
returned handle is the new entry; in the embedding it is identified by
its position, which `Idx` tracks. -/
def Add (s : List Pqe) (f : Frame) : Option (List Pqe) :=
  Fix (s ++ [{ val := f, orderBy := f.tm, idx := (s.length : Int) }]) (s.length : Int)

/-- `Update(pqe, value)` (pq.go) for the handle resident at position `i`:
overwrite `Val` and `OrderBy` in place, then `heap.Fix(pq, pqe.Idx)` at
the entry's stored index. -/
def Update (s : List Pqe) (i : Nat) (v : Frame) : Option (List Pqe) :=
  Fix (s.set i { s.getD i dPqe with val := v, orderBy := v.tm }) (s.getD i dPqe).idx

/-- `Reinit()` (pq.go): `heap.Init(pq)`. -/
def Reinit (s : List Pqe) : List Pqe := Init s

/-- Repeatedly `heap.Pop` until the queue is empty, collecting the popped
entries in order. -/
def popAll (s : List Pqe) : List Pqe :=
  match h : heapPop s with
  | none => []
  | some r => r.1 :: popAll r.2
termination_by s.length
decreasing_by
  unfold heapPop at h
  by_cases hz : s.length = 0
  · simp [hz] at h
  · simp only [hz, if_false, ite_false, Option.some.injEq] at h
    have hlen : r.2.length ≤ s.length - 1 := by
      rw [← h]
      simp only [List.length_take]
      omega
    omega

/-- `Add` over a whole list of frames, left to right, starting from `s`. -/
def addAll (fs : List Frame) (s : List Pqe) : Option (List Pqe) :=
  match fs with
  | [] => some s
  | f :: rest => (Add s f).bind (addAll rest)

/-- Min-heap order on the first `n` positions: every non-root position in
range is no smaller than its parent. -/
abbrev IsHeapN (s : List Pqe) (n : Nat) : Prop :=
  ∀ j, j < n → 0 < j → kOf s ((j - 1) / 2) ≤ kOf s j

/-- The heap invariant of the whole backing sequence. -/
abbrev IsHeap (s : List Pqe) : Prop := IsHeapN s s.length

/-- The index invariant: every resident entry's `Idx` equals its actual
position in the backing sequence. -/
abbrev IdxOk (s : List Pqe) : Prop :=
  ∀ i, i < s.length → (s.getD i dPqe).idx = (i : Int)

/-- The payload of an entry: what a consumer observes (frame and key),
ignoring the queue-internal `Idx` bookkeeping field. -/
def pl (e : Pqe) : Frame × Int := (e.val, e.orderBy)

end PQ

/-! ## Claim-side (specification-modelled) definitions -/

/-- Modelled from the spec (§7): the write-status taxonomy the
specification describes — ok, `ShortWrite`, `BufferFull` — as three
distinct kinds. -/
inductive SpecWriteStatus where
  | ok : SpecWriteStatus
  | shortWrite : SpecWriteStatus
  | bufferFull : SpecWriteStatus
deriving DecidableEq

/-- Modelled from the spec (§8, short-write boundary): the status the
specification assigns to a write of `r` slots against free capacity `c`. -/
def specWriteStatus (c r : Nat) : SpecWriteStatus :=
  if r = 0 then SpecWriteStatus.ok
  else if c = 0 then SpecWriteStatus.bufferFull
  else if r ≤ c then SpecWriteStatus.ok
  else SpecWriteStatus.shortWrite

/-- The concrete wraparound scenario of claim C1: a capacity-2 buffer,
write two frames, read one, write one more, so that the readable region
wraps (`Beg = 1`, `Readable = 2`, `Beg + Readable > N`). -/
def c1State : Option FrameRingBuf :=
  (RingWriteFrames (NewFrameRingBuf 2) [some { tm := 1, payload := 1 },
      some { tm := 2, payload := 2 }]).bind (fun r1 =>
    (RingReadFrames r1.2.2 [none]).bind (fun r2 =>
      (RingWriteFrames r2.2.2.2 [some { tm := 3, payload := 3 }]).map (fun r3 => r3.2.2)))

/-- A concrete wrapped ring buffer used by the witnesses: capacity 3,
readable region `[2, 4) mod 3` (it wraps). -/
def bufWitness : FrameRingBuf :=
  { A := [some { tm := 7, payload := 7 }, none, some { tm := 5, payload := 5 }],
    N := 3, Beg := 2, Readable := 2 }

/-- A concrete completely full ring buffer (free capacity 0). -/
def fullBuf : FrameRingBuf := { A := [none], N := 1, Beg := 0, Readable := 1 }

/-- A concrete partly filled ring buffer (free capacity 1). -/
def partBuf : FrameRingBuf := { A := [none, none], N := 2, Beg := 0, Readable := 1 }

/-- A concrete valid priority queue used by the witnesses. -/
def pqWitness : List PQ.Pqe :=
  [{ val := { tm := 1, payload := 0 }, orderBy := 1, idx := 0 },
   { val := { tm := 5, payload := 0 }, orderBy := 5, idx := 1 },
   { val := { tm := 3, payload := 0 }, orderBy := 3, idx := 2 }]

/-! ## List helper lemmas -/

theorem getD_set_eq (l : List α) (i : Nat) (a d : α) (h : i < l.length) :
    (l.set i a).getD i d = a := by
  simp [List.getD_eq_getElem?_getD, List.getElem?_set_self h]

theorem getD_set_ne (l : List α) (i j : Nat) (a d : α) (h : i ≠ j) :
    (l.set i a).getD j d = l.getD j d := by
  simp [List.getD_eq_getElem?_getD, List.getElem?_set_ne h]

theorem length_setSeg (q l : List α) (s : Nat) : (setSeg l s q).length = l.length := by
  induction q generalizing l s with
  | nil => rfl
  | cons x xs ih => simp [setSeg, ih, List.length_set]

theorem getD_setSeg (q l : List α) (s m : Nat) (d : α) :
    (setSeg l s q).getD m d =
      if s ≤ m ∧ m < s + q.length ∧ m < l.length then q.getD (m - s) d
      else l.getD m d := by
  induction q generalizing l s with
  | nil =>
    rw [setSeg]
    have hc : ¬ (s ≤ m ∧ m < s + (List.length ([] : List α)) ∧ m < l.length) := by
      simp only [List.length_nil]
      omega
    rw [if_neg hc]
  | cons x xs ih =>
    rw [setSeg, ih]
    rcases Nat.lt_trichotomy m s with hms | hms | hms
    · have h1 : ¬ (s + 1 ≤ m) := by omega
      have h2 : ¬ (s ≤ m) := by omega
      simp only [h1, h2, false_and, if_false]
      exact getD_set_ne l s m x d (by omega)
    · subst hms
      have h1 : ¬ (m + 1 ≤ m) := by omega
      simp only [h1, false_and, if_false, List.length_set]
      by_cases hlen : m < l.length
      · have : m ≤ m ∧ m < m + (xs.length + 1) ∧ m < l.length := by
          refine ⟨le_refl m, by omega, hlen⟩
        simp only [List.length_cons, this, and_true, Nat.le_refl, true_and, if_pos,
          (by omega : m < m + (xs.length + 1)), Nat.sub_self]
        rw [getD_set_eq l m x d hlen, List.getD_cons_zero]
      · have : ¬ (m ≤ m ∧ m < m + (xs.length + 1) ∧ m < l.length) := by
          intro hc; exact hlen hc.2.2
        simp only [List.length_cons, this, if_false]
        rw [List.set_eq_of_length_le (by omega)]
    · have hge : s + 1 ≤ m := by omega
      simp only [List.length_set, List.length_cons]
      by_cases hin : m < s + 1 + xs.length ∧ m < l.length
      · have c1 : s + 1 ≤ m ∧ m < s + 1 + xs.length ∧ m < l.length := ⟨hge, hin.1, hin.2⟩
        have c2 : s ≤ m ∧ m < s + (xs.length + 1) ∧ m < l.length := ⟨by omega, by omega, hin.2⟩
        simp only [c1, c2, if_true, if_pos, and_true, true_and]
        have hsub : m - s = (m - (s + 1)) + 1 := by omega
        rw [hsub, List.getD_cons_succ]
      · have c1 : ¬ (s + 1 ≤ m ∧ m < s + 1 + xs.length ∧ m < l.length) := by
          intro hc; exact hin ⟨hc.2.1, hc.2.2⟩
        have c2 : ¬ (s ≤ m ∧ m < s + (xs.length + 1) ∧ m < l.length) := by
          intro hc; exact hin ⟨by omega, hc.2.2⟩
        simp only [c1, c2, if_false]
        exact getD_set_ne l s m x d (by omega)

theorem slice?_eq (l : List α) (lo hi : Nat) (h1 : lo ≤ hi) (h2 : hi ≤ l.length) :
    slice? l lo hi = some ((l.take hi).drop lo) := by
  simp [slice?, h1, h2]

theorem slice?_none (l : List α) (lo hi : Nat) (h : l.length < hi) :
    slice? l lo hi = none := by
  simp only [slice?, ite_eq_right_iff]
  intro hc; omega

theorem length_take_drop (l : List α) (lo hi : Nat) (h2 : hi ≤ l.length) :
    ((l.take hi).drop lo).length = hi - lo := by
  simp [List.length_drop, List.length_take]
  omega

theorem getD_take_drop (l : List α) (lo hi t : Nat) (d : α) (h1 : lo + t < hi)
    (h2 : hi ≤ l.length) : ((l.take hi).drop lo).getD t d = l.getD (lo + t) d := by
  simp [List.getD_eq_getElem?_getD, List.getElem?_drop, List.getElem?_take, h1]

theorem getD_readableSlots (b : FrameRingBuf) (t : Nat) (h : t < b.Readable) :
    (readableSlots b).getD t none = b.A.getD ((b.Beg + t) % b.N) none := by
  simp [readableSlots, List.getD_eq_getElem?_getD, List.getElem?_map, List.getElem?_range, h]

/-! ## Ring-buffer operation specifications -/

theorem writeStep_eq (b : FrameRingBuf) (p : List FramePtr)
    (hlen : b.A.length = b.N) (hcap : b.Readable < b.N) :
    writeStep b p =
      some (min (min (b.N - b.Readable) (b.N - (b.Beg + b.Readable) % b.N)) p.length,
        { b with
          A := setSeg b.A ((b.Beg + b.Readable) % b.N)
            (p.take (min (min (b.N - b.Readable) (b.N - (b.Beg + b.Readable) % b.N)) p.length)),
          Readable := b.Readable +
            min (min (b.N - b.Readable) (b.N - (b.Beg + b.Readable) % b.N)) p.length }) := by
  have hN : b.N ≠ 0 := by omega
  have hws : (b.Beg + b.Readable) % b.N < b.N := Nat.mod_lt _ (by omega)
  unfold writeStep
  rw [if_neg hN]
  have hA : ¬ (b.A.length < min ((b.Beg + b.Readable) % b.N + (b.N - b.Readable)) b.N) := by
    omega
  rw [if_neg hA]
  have harith :
      min ((b.Beg + b.Readable) % b.N + (b.N - b.Readable)) b.N - (b.Beg + b.Readable) % b.N
        = min (b.N - b.Readable) (b.N - (b.Beg + b.Readable) % b.N) := by
    omega
  rw [harith]

theorem ringWriteLoop_step (b : FrameRingBuf) (p : List FramePtr) (n : Nat)
    (err : Option IOErr) (hp : ¬ p.length = 0) (hcap : ¬ b.N - b.Readable = 0)
    (k : Nat) (b1 : FrameRingBuf) (hstep : writeStep b p = some (k, b1)) :
    ringWriteLoop b p n err = ringWriteLoop b1 (p.drop k) (n + k)
      (if b.N - b.Readable < p.length then some IOErr.errShortWrite else err) := by
  rw [ringWriteLoop, dif_neg hp, dif_neg hcap]
  split
  all_goals
    split
    · next heqn =>
        rw [hstep] at heqn
        exact absurd heqn (by simp)
    · next k2 b2 heqs =>
        rw [hstep] at heqs
        have hkk : k = k2 ∧ b1 = b2 := by simpa using heqs
        obtain ⟨h1, h2⟩ := hkk
        subst h1
        subst h2
        rfl

/-- Full functional specification of the `RingWriteFrames` loop, by
induction on the length of the remaining input. -/
theorem ringWriteLoop_spec (p : List FramePtr) (b : FrameRingBuf) (n : Nat)
    (err : Option IOErr) (hinv : RingInv b) :
    ∃ b2, ringWriteLoop b p n err =
        some (n + min p.length (b.N - b.Readable),
          if b.N - b.Readable < p.length then some IOErr.errShortWrite else err, b2) ∧
      RingInv b2 ∧ b2.N = b.N ∧ b2.Beg = b.Beg ∧
      b2.Readable = b.Readable + min p.length (b.N - b.Readable) ∧
      ∀ t, t < b.Readable →
        b2.A.getD ((b.Beg + t) % b.N) none = b.A.getD ((b.Beg + t) % b.N) none := by
  obtain ⟨hlen, hr, hbeg⟩ := hinv
  by_cases hp : p.length = 0
  · refine ⟨b, ?_, ⟨hlen, hr, hbeg⟩, rfl, rfl, ?_, fun t _ => rfl⟩
    · rw [ringWriteLoop, dif_pos hp, hp]
      have hno : ¬ (b.N - b.Readable < 0) := by omega
      simp [hno]
    · simp [hp]
  · by_cases hcap : b.N - b.Readable = 0
    · refine ⟨b, ?_, ⟨hlen, hr, hbeg⟩, rfl, rfl, ?_, fun t _ => rfl⟩
      · rw [ringWriteLoop, dif_neg hp, dif_pos hcap, hcap]
        have hyes : 0 < p.length := by omega
        simp [hyes]
      · simp [hcap]
    · -- one pass of the copy loop, then the induction hypothesis
      have hcap' : b.Readable < b.N := by omega
      have hws : (b.Beg + b.Readable) % b.N < b.N := Nat.mod_lt _ (by omega)
      set ws := (b.Beg + b.Readable) % b.N with hws_def
      set k := min (min (b.N - b.Readable) (b.N - ws)) p.length with hk_def
      have hk1 : 1 ≤ k := by omega
      have hkcap : k ≤ b.N - b.Readable := by omega
      set b1 : FrameRingBuf :=
        { b with A := setSeg b.A ws (p.take k), Readable := b.Readable + k } with hb1_def
      have hb1len : b1.A.length = b.N := by
        simpa [hb1_def, length_setSeg] using hlen
      have hb1inv : RingInv b1 := by
        refine ⟨hb1len, ?_, ?_⟩
        · simp only [hb1_def]
          omega
        · simp only [hb1_def]
          omega
      have ih := ringWriteLoop_spec (p.drop k) b1 (n + k)
        (if b.N - b.Readable < p.length then some IOErr.errShortWrite else err) hb1inv
      obtain ⟨b2, heq, hinv2, hN2, hbeg2, hread2, hpres2⟩ := ih
      have hN1 : b1.N = b.N := by simp only [hb1_def]
      have hbeg1 : b1.Beg = b.Beg := by simp only [hb1_def]
      have hread1 : b1.Readable = b.Readable + k := by simp only [hb1_def]
      have hstep : writeStep b p = some (k, b1) := by
        rw [writeStep_eq b p hlen hcap']
      refine ⟨b2, ?_, hinv2, by rw [hN2, hN1], by rw [hbeg2, hbeg1], ?_, ?_⟩
      · rw [ringWriteLoop_step b p n err hp hcap k b1 hstep, heq]
        have e1 : n + k + min (p.drop k).length (b1.N - b1.Readable)
            = n + min p.length (b.N - b.Readable) := by
          rw [hN1, hread1, List.length_drop]
          omega
        have e2 : (if b1.N - b1.Readable < (p.drop k).length then some IOErr.errShortWrite
              else if b.N - b.Readable < p.length then some IOErr.errShortWrite else err)
            = if b.N - b.Readable < p.length then some IOErr.errShortWrite else err := by
          rw [hN1, hread1, List.length_drop]
          by_cases hc : b.N - b.Readable < p.length
          · have hc2 : b.N - (b.Readable + k) < p.length - k := by omega
            simp [hc, hc2]
          · have hc2 : ¬ (b.N - (b.Readable + k) < p.length - k) := by omega
            simp [hc, hc2]
        rw [e1, e2]
      · rw [hread2, hread1, hN1, List.length_drop]
        omega
      · intro t ht
        have ht1 : t < b1.Readable := by
          rw [hread1]
          omega
        have hmid := hpres2 t ht1
        rw [hbeg1, hN1] at hmid
        rw [hmid]
        -- the slots written this pass lie outside the old readable region
        show (setSeg b.A ws (p.take k)).getD ((b.Beg + t) % b.N) none
          = b.A.getD ((b.Beg + t) % b.N) none
        rw [getD_setSeg]
        rw [if_neg]
        intro hcc
        obtain ⟨hc1, hc2, hc3⟩ := hcc
        rw [List.length_take] at hc2
        -- (b.Beg + t) % b.N = ws + u for some u < k: impossible mod N
        have hu1 : (b.Beg + t) % b.N - ws < k := by omega
        have hu2 : (b.Beg + t) % b.N = ws + ((b.Beg + t) % b.N - ws) := by omega
        set u := (b.Beg + t) % b.N - ws with hu_def
        have hlt : ws + u < b.N := by omega
        have hmod : (b.Beg + t) % b.N = (b.Beg + b.Readable + u) % b.N := by
          conv_rhs => rw [← Nat.mod_add_mod]
          rw [← hws_def, Nat.mod_eq_of_lt hlt]
          exact hu2
        have hmodeq : Nat.ModEq b.N (b.Beg + t) (b.Beg + b.Readable + u) := hmod
        have hdvd : b.N ∣ (b.Beg + b.Readable + u) - (b.Beg + t) :=
          (Nat.modEq_iff_dvd' (by omega)).mp hmodeq
        have hlow : 0 < (b.Beg + b.Readable + u) - (b.Beg + t) := by omega
        have hhigh : (b.Beg + b.Readable + u) - (b.Beg + t) < b.N := by omega
        exact absurd (Nat.le_of_dvd hlow hdvd) (by omega)
termination_by p.length
decreasing_by simp only [List.length_drop]; omega

/-- Functional specification of `RingWriteFrames` on any buffer satisfying
the structural invariant: it writes `min (len p) (N - Readable)` pointers,
returns `io.ErrShortWrite` exactly when the request exceeds the free
capacity (including the completely-full case), leaves `N` and `Beg`
untouched, grows `Readable` by the count written, and does not change any
slot of the old readable region. -/
theorem RingWriteFrames_spec (b : FrameRingBuf) (p : List FramePtr) (hinv : RingInv b) :
    ∃ b2, RingWriteFrames b p =
        some (min p.length (b.N - b.Readable),
          if b.N - b.Readable < p.length then some IOErr.errShortWrite else none, b2) ∧
      RingInv b2 ∧ b2.N = b.N ∧ b2.Beg = b.Beg ∧
      b2.Readable = b.Readable + min p.length (b.N - b.Readable) ∧
      ∀ t, t < b.Readable →
        b2.A.getD ((b.Beg + t) % b.N) none = b.A.getD ((b.Beg + t) % b.N) none := by
  simpa [RingWriteFrames] using ringWriteLoop_spec p b 0 none hinv

theorem Advance_nat (b : FrameRingBuf) (n : Nat) (hn : 0 < n) (hr : n ≤ b.Readable)
    (hN : 0 < b.N) :
    Advance b (n : Int) = some { b with Readable := b.Readable - n, Beg := (b.Beg + n) % b.N } := by
  unfold Advance
  have h1 : ¬ ((n : Int) ≤ 0) := by
    simp
    omega
  rw [if_neg h1]
  have h2 : ¬ ((b.Readable : Int) < (n : Int)) := by
    simp
    omega
  rw [if_neg h2, if_neg (by omega : ¬ b.N = 0)]
  simp

theorem Advance_inv (b : FrameRingBuf) (n : Int) (hinv : RingInv b) (b2 : FrameRingBuf)
    (h : Advance b n = some b2) : RingInv b2 := by
  obtain ⟨hlen, hr, hbeg⟩ := hinv
  unfold Advance at h
  by_cases h1 : n ≤ 0
  · rw [if_pos h1] at h
    cases h
    exact ⟨hlen, hr, hbeg⟩
  · rw [if_neg h1] at h
    by_cases h2 : b.N = 0
    · rw [if_pos h2] at h
      cases h
    · rw [if_neg h2] at h
      cases h
      unfold RingInv
      simp only
      refine ⟨hlen, ?_, fun _ => Nat.mod_lt _ (by omega)⟩
      by_cases h3 : (b.Readable : Int) < n
      · rw [if_pos h3]
        omega
      · rw [if_neg h3]
        omega

theorem getD_take (l : List α) (c m : Nat) (d : α) (h : m < c) :
    (l.take c).getD m d = l.getD m d := by
  simp [List.getD_eq_getElem?_getD, List.getElem?_take, h]

theorem readAndMaybeAdvance_nil (b : FrameRingBuf) (adv : Bool) (p : List FramePtr)
    (hp : p.length = 0) : readAndMaybeAdvance b p adv = some (0, none, p, b) := by
  unfold readAndMaybeAdvance
  rw [if_pos hp]

theorem readAndMaybeAdvance_empty (b : FrameRingBuf) (p : List FramePtr) (adv : Bool)
    (hp : ¬ p.length = 0) (hr : b.Readable = 0) :
    readAndMaybeAdvance b p adv = some (0, some IOErr.eof, p, b) := by
  unfold readAndMaybeAdvance
  rw [if_neg hp, if_pos hr]

theorem finishRead_spec (b : FrameRingBuf) (p2 : List FramePtr) (n : Nat) (adv : Bool)
    (hn : 0 < n) (hr : n ≤ b.Readable) (hN : 0 < b.N) :
    finishRead b p2 n adv =
      some (n, none, p2,
        if adv then { b with Readable := b.Readable - n, Beg := (b.Beg + n) % b.N }
        else b) := by
  unfold finishRead
  cases adv
  · simp
  · simp [Advance_nat b n hn hr hN]

/-- Functional specification of `readAndMaybeAdvance` in the interesting
case (non-empty output slice, non-empty buffer): it reads exactly
`min (len p) Readable` pointers, oldest first, into the front of `p`,
returns a `nil` error, and advances `Beg`/`Readable` exactly when asked
to. -/
theorem readAndMaybeAdvance_spec (b : FrameRingBuf) (p : List FramePtr) (adv : Bool)
    (hinv : RingInv b) (hp : ¬ p.length = 0) (hr : ¬ b.Readable = 0) :
    ∃ p2, readAndMaybeAdvance b p adv =
        some (min p.length b.Readable, none, p2,
          if adv then { b with Readable := b.Readable - min p.length b.Readable,
                               Beg := (b.Beg + min p.length b.Readable) % b.N }
          else b) ∧
      p2.length = p.length ∧
      (∀ m, m < min p.length b.Readable →
        p2.getD m none = b.A.getD ((b.Beg + m) % b.N) none) ∧
      (∀ m, min p.length b.Readable ≤ m → p2.getD m none = p.getD m none) := by
  obtain ⟨hlen, hrN, hbeg⟩ := hinv
  have hN : 0 < b.N := by omega
  have hbeg' : b.Beg < b.N := hbeg hN
  have hn1 : 1 ≤ min p.length b.Readable := by omega
  unfold readAndMaybeAdvance
  rw [if_neg hp, if_neg hr]
  by_cases hext : b.Beg + b.Readable ≤ b.N
  · -- contiguous case
    rw [if_pos hext, slice?_eq b.A b.Beg (b.Beg + b.Readable) (by omega) (by omega)]
    have hsrclen : ((b.A.take (b.Beg + b.Readable)).drop b.Beg).length = b.Readable := by
      rw [length_take_drop b.A b.Beg (b.Beg + b.Readable) (by omega)]
      omega
    simp only [goCopy, hsrclen]
    rw [finishRead_spec b _ _ adv (by omega) (by omega) hN]
    refine ⟨_, rfl, ?_, ?_, ?_⟩
    · rw [length_setSeg]
    · intro m hm
      rw [getD_setSeg]
      have hq : (List.take p.length ((b.A.take (b.Beg + b.Readable)).drop b.Beg)).length
          = min p.length b.Readable := by
        rw [List.length_take, hsrclen]
      rw [if_pos ⟨by omega, by rw [hq]; omega, by omega⟩]
      rw [Nat.sub_zero, getD_take _ _ _ _ (by omega),
        getD_take_drop b.A b.Beg (b.Beg + b.Readable) m none (by omega) (by omega),
        Nat.mod_eq_of_lt (by omega)]
    · intro m hm
      rw [getD_setSeg, if_neg]
      intro hcc
      rw [List.length_take, hsrclen] at hcc
      omega
  · -- wrapped case
    rw [if_neg hext, slice?_eq b.A b.Beg b.N (by omega) (by omega)]
    have hsrc1len : ((b.A.take b.N).drop b.Beg).length = b.N - b.Beg := by
      rw [length_take_drop b.A b.Beg b.N (by omega)]
    have hmodext : (b.Beg + b.Readable) % b.N = b.Beg + b.Readable - b.N := by
      rw [Nat.mod_eq_sub_mod (by omega), Nat.mod_eq_of_lt (by omega)]
    simp only [goCopy, hsrc1len]
    by_cases hfull : min p.length (b.N - b.Beg) < p.length
    · -- the copy wraps into the front of the array
      have hn1eq : min p.length (b.N - b.Beg) = b.N - b.Beg := by omega
      rw [if_pos hfull, if_neg (by omega : ¬ b.N = 0),
        slice?_eq b.A 0 ((b.Beg + b.Readable) % b.N) (by omega) (by omega)]
      have hsrc2len : ((b.A.take ((b.Beg + b.Readable) % b.N)).drop 0).length
          = b.Beg + b.Readable - b.N := by
        rw [length_take_drop b.A 0 _ (by omega), hmodext]
        omega
      simp only [hsrc2len]
      have hcount : b.N - b.Beg + min (p.length - (b.N - b.Beg)) (b.Beg + b.Readable - b.N)
          = min p.length b.Readable := by omega
      rw [hn1eq, hcount, finishRead_spec b _ _ adv (by omega) (by omega) hN]
      refine ⟨_, rfl, ?_, ?_, ?_⟩
      · rw [length_setSeg, length_setSeg]
      · intro m hm
        rw [getD_setSeg]
        by_cases hm1 : m < b.N - b.Beg
        · -- still inside the first copied segment
          rw [if_neg]
          · rw [getD_setSeg, if_pos]
            · rw [Nat.sub_zero, getD_take _ _ _ _ (by omega),
                getD_take_drop b.A b.Beg b.N m none (by omega) (by omega),
                Nat.mod_eq_of_lt (by omega)]
            · refine ⟨by omega, ?_, by omega⟩
              rw [List.length_take, hsrc1len]
              omega
          · intro hcc
            omega
        · -- inside the wrapped segment
          rw [if_pos]
          · rw [getD_take _ _ _ _ (by omega),
              getD_take_drop b.A 0 ((b.Beg + b.Readable) % b.N) (m - (b.N - b.Beg)) none ?_ (by omega)]
            · rw [Nat.zero_add]
              congr 1
              rw [eq_comm, Nat.mod_eq_sub_mod (by omega), Nat.mod_eq_of_lt (by omega)]
              omega
            · rw [Nat.zero_add, hmodext]
              omega
          · refine ⟨by omega, ?_, ?_⟩
            · rw [List.length_take, hsrc2len]
              omega
            · rw [length_setSeg]
              omega
      · intro m hm
        rw [getD_setSeg, if_neg, getD_setSeg, if_neg]
        · intro hcc
          rw [List.length_take, hsrc1len] at hcc
          omega
        · intro hcc
          rw [List.length_take, hsrc2len] at hcc
          omega
    · -- the first segment already fills p
      have hplen : p.length ≤ b.N - b.Beg := by omega
      have hneq : min p.length (b.N - b.Beg) = p.length := by omega
      have hneq2 : min p.length b.Readable = p.length := by omega
      rw [if_neg hfull, hneq, hneq2, finishRead_spec b _ _ adv (by omega) (by omega) hN]
      refine ⟨_, rfl, ?_, ?_, ?_⟩
      · rw [length_setSeg]
      · intro m hm
        rw [getD_setSeg, if_pos]
        · rw [Nat.sub_zero, getD_take _ _ _ _ (by omega),
            getD_take_drop b.A b.Beg b.N m none (by omega) (by omega),
            Nat.mod_eq_of_lt (by omega)]
        · refine ⟨by omega, ?_, by omega⟩
          rw [List.length_take, hsrc1len]
          omega
      · intro m hm
        rw [getD_setSeg, if_neg]
        intro hcc
        rw [List.length_take, hsrc1len] at hcc
        omega

/-! ## Permutation helpers for `List.set`-based swapping -/

theorem getD_map (f : α → β) (l : List α) (i : Nat) (d : α) :
    (l.map f).getD i (f d) = f (l.getD i d) := by
  simp only [List.getD_eq_getElem?_getD, List.getElem?_map]
  cases l[i]? <;> rfl

theorem count_set [DecidableEq α] (l : List α) (i : Nat) (a d x : α) (h : i < l.length) :
    (l.set i a).count x + (if l.getD i d = x then 1 else 0)
      = l.count x + (if a = x then 1 else 0) := by
  induction l generalizing i with
  | nil => simp at h
  | cons c t ih =>
    cases i with
    | zero =>
      simp only [List.set_cons_zero, List.count_cons, List.getD_cons_zero, beq_iff_eq]
      by_cases h1 : a = x <;> by_cases h2 : c = x <;> simp [h1, h2] <;> omega
    | succ i =>
      simp only [List.set_cons_succ, List.count_cons, List.getD_cons_succ, beq_iff_eq]
      have ih2 := ih i (by simpa using h)
      rw [List.getD_eq_getElem?_getD] at ih2
      by_cases h2 : c = x <;> simp [h2] <;> omega

theorem set_getD_self (l : List α) (i : Nat) (d : α) (h : i < l.length) :
    l.set i (l.getD i d) = l := by
  apply List.ext_getElem?
  intro n
  rw [List.getElem?_set]
  by_cases he : i = n
  · subst he
    simp [h, List.getD_eq_getElem?_getD, List.getElem?_eq_getElem h]
  · simp [he]

theorem set_set_perm [DecidableEq α] (l : List α) (i j : Nat) (d : α)
    (hi : i < l.length) (hj : j < l.length) :
    List.Perm ((l.set i (l.getD j d)).set j (l.getD i d)) l := by
  by_cases hij : i = j
  · subst hij
    rw [List.set_set, set_getD_self l i d hi]
  · rw [List.perm_iff_count]
    intro x
    have e1 := count_set l i (l.getD j d) d x hi
    have e2 := count_set (l.set i (l.getD j d)) j (l.getD i d) d x
      (by simpa using hj)
    rw [getD_set_ne l i j _ d hij] at e2
    omega

/-! ## Priority-queue: structural lemmas (length, payload permutation, index invariant) -/

namespace PQ

theorem Swap_length (s : List Pqe) (i j : Nat) : (Swap s i j).length = s.length := by
  simp [Swap]

theorem kOf_Swap_right (s : List Pqe) (i j : Nat) (hj : j < s.length) :
    kOf (Swap s i j) j = kOf s i := by
  unfold Swap kOf
  rw [getD_set_eq _ _ _ _ (by simpa using hj)]

theorem kOf_Swap_left (s : List Pqe) (i j : Nat) (hij : i ≠ j) (hi : i < s.length) :
    kOf (Swap s i j) i = kOf s j := by
  unfold Swap kOf
  rw [getD_set_ne _ _ _ _ _ (fun h => hij h.symm), getD_set_eq _ _ _ _ hi]

theorem kOf_Swap_other (s : List Pqe) (i j m : Nat) (hmi : m ≠ i) (hmj : m ≠ j) :
    kOf (Swap s i j) m = kOf s m := by
  unfold Swap kOf
  rw [getD_set_ne _ _ _ _ _ (fun h => hmj h.symm), getD_set_ne _ _ _ _ _ (fun h => hmi h.symm)]

theorem getD_Swap_right (s : List Pqe) (i j : Nat) (hj : j < s.length) :
    (Swap s i j).getD j dPqe = { s.getD i dPqe with idx := (j : Int) } := by
  unfold Swap
  rw [getD_set_eq _ _ _ _ (by simpa using hj)]

theorem getD_Swap_other (s : List Pqe) (i j m : Nat) (hmi : m ≠ i) (hmj : m ≠ j) :
    (Swap s i j).getD m dPqe = s.getD m dPqe := by
  unfold Swap
  rw [getD_set_ne _ _ _ _ _ (fun h => hmj h.symm), getD_set_ne _ _ _ _ _ (fun h => hmi h.symm)]

theorem pl_map_Swap (s : List Pqe) (i j : Nat) (hi : i < s.length) (hj : j < s.length) :
    List.Perm ((Swap s i j).map pl) (s.map pl) := by
  unfold Swap
  rw [List.map_set, List.map_set]
  have e1 : pl { s.getD j dPqe with idx := (i : Int) } = (s.map pl).getD j (pl dPqe) := by
    rw [getD_map pl s j dPqe]
    rfl
  have e2 : pl { s.getD i dPqe with idx := (j : Int) } = (s.map pl).getD i (pl dPqe) := by
    rw [getD_map pl s i dPqe]
    rfl
  rw [e1, e2]
  exact set_set_perm (s.map pl) i j (pl dPqe) (by simpa using hi) (by simpa using hj)

theorem IdxOk_Swap (s : List Pqe) (i j : Nat) (h : IdxOk s) : IdxOk (Swap s i j) := by
  intro m hm
  rw [Swap_length] at hm
  by_cases hmj : m = j
  · subst hmj
    rw [getD_Swap_right s i m hm]
  · by_cases hmi : m = i
    · subst hmi
      unfold Swap
      rw [getD_set_ne _ _ _ _ _ (fun hh => hmj hh.symm), getD_set_eq _ _ _ _ hm]
    · rw [getD_Swap_other s i j m hmi hmj]
      exact h m hm

theorem up_length (s : List Pqe) (j : Nat) (s2 : List Pqe) (h : up s j = some s2) :
    s2.length = s.length := by
  induction j using Nat.strong_induction_on generalizing s with
  | _ j ih =>
    rw [up] at h
    by_cases h0 : j = 0
    · rw [if_pos h0] at h
      cases h
      rfl
    · rw [if_neg h0] at h
      by_cases hl : s.length ≤ j
      · rw [if_pos hl] at h
        cases h
      · rw [if_neg hl] at h
        by_cases hless : Less s j ((j - 1) / 2)
        · rw [if_pos hless] at h
          have := ih ((j - 1) / 2) (by omega) (Swap s ((j - 1) / 2) j) h
          rw [this, Swap_length]
        · rw [if_neg hless] at h
          cases h
          rfl

theorem up_perm (s : List Pqe) (j : Nat) (s2 : List Pqe) (h : up s j = some s2) :
    List.Perm (s2.map pl) (s.map pl) := by
  induction j using Nat.strong_induction_on generalizing s with
  | _ j ih =>
    rw [up] at h
    by_cases h0 : j = 0
    · rw [if_pos h0] at h
      cases h
      exact List.Perm.refl _
    · rw [if_neg h0] at h
      by_cases hl : s.length ≤ j
      · rw [if_pos hl] at h
        cases h
      · rw [if_neg hl] at h
        by_cases hless : Less s j ((j - 1) / 2)
        · rw [if_pos hless] at h
          exact (ih ((j - 1) / 2) (by omega) _ h).trans
            (pl_map_Swap s ((j - 1) / 2) j (by omega) (by omega))
        · rw [if_neg hless] at h
          cases h
          exact List.Perm.refl _

theorem up_IdxOk (s : List Pqe) (j : Nat) (s2 : List Pqe) (h : up s j = some s2)
    (hidx : IdxOk s) : IdxOk s2 := by
  induction j using Nat.strong_induction_on generalizing s with
  | _ j ih =>
    rw [up] at h
    by_cases h0 : j = 0
    · rw [if_pos h0] at h
      cases h
      exact hidx
    · rw [if_neg h0] at h
      by_cases hl : s.length ≤ j
      · rw [if_pos hl] at h
        cases h
      · rw [if_neg hl] at h
        by_cases hless : Less s j ((j - 1) / 2)
        · rw [if_pos hless] at h
          exact ih ((j - 1) / 2) (by omega) _ h (IdxOk_Swap s _ _ hidx)
        · rw [if_neg hless] at h
          cases h
          exact hidx

theorem child_lb (s : List Pqe) (i n : Nat) : 2 * i + 1 ≤ child s i n := by
  unfold child
  split
  · omega
  · omega

theorem child_ub (s : List Pqe) (i n : Nat) (h : ¬ n ≤ 2 * i + 1) : child s i n < n := by
  unfold child
  split
  · next hsel => omega
  · omega

theorem child_parent (s : List Pqe) (i n : Nat) : (child s i n - 1) / 2 = i := by
  unfold child
  split
  · omega
  · omega

theorem child_min_left (s : List Pqe) (i n : Nat) : kOf s (child s i n) ≤ kOf s (2 * i + 1) := by
  unfold child
  split
  · next hsel => exact le_of_lt hsel.2
  · exact le_refl _

theorem child_min_right (s : List Pqe) (i n : Nat) (h2 : 2 * i + 2 < n) :
    kOf s (child s i n) ≤ kOf s (2 * i + 2) := by
  unfold child
  split
  · exact le_refl _
  · next hsel => exact le_of_not_lt (fun hl => hsel ⟨h2, hl⟩)

theorem down_length (s : List Pqe) (i n : Nat) : (down s i n).1.length = s.length := by
  by_cases h1 : n ≤ 2 * i + 1
  · rw [down, if_pos h1]
  · rw [down, if_neg h1]
    by_cases hless : Less s (child s i n) i
    · rw [if_pos hless, down_length (Swap s i (child s i n)) (child s i n) n, Swap_length]
    · rw [if_neg hless]
termination_by n - i
decreasing_by
  have hlb := child_lb s i n
  have hub := child_ub s i n h1
  omega

theorem down_perm (s : List Pqe) (i n : Nat) (hn : n ≤ s.length) :
    List.Perm ((down s i n).1.map pl) (s.map pl) := by
  by_cases h1 : n ≤ 2 * i + 1
  · rw [down, if_pos h1]
  · rw [down, if_neg h1]
    by_cases hless : Less s (child s i n) i
    · rw [if_pos hless]
      have hlb := child_lb s i n
      have hub := child_ub s i n h1
      exact (down_perm (Swap s i (child s i n)) (child s i n) n
          (by rw [Swap_length]; exact hn)).trans
        (pl_map_Swap s i (child s i n) (by omega) (by omega))
    · rw [if_neg hless]
termination_by n - i
decreasing_by
  have hlb := child_lb s i n
  have hub := child_ub s i n h1
  omega

theorem down_IdxOk (s : List Pqe) (i n : Nat) (h : IdxOk s) : IdxOk (down s i n).1 := by
  by_cases h1 : n ≤ 2 * i + 1
  · rw [down, if_pos h1]
    exact h
  · rw [down, if_neg h1]
    by_cases hless : Less s (child s i n) i
    · rw [if_pos hless]
      exact down_IdxOk (Swap s i (child s i n)) (child s i n) n (IdxOk_Swap s _ _ h)
    · rw [if_neg hless]
      exact h
termination_by n - i
decreasing_by
  have hlb := child_lb s i n
  have hub := child_ub s i n h1
  omega

theorem down_untouched (s : List Pqe) (i n : Nat) (m : Nat) (hm : n ≤ m) :
    (down s i n).1.getD m dPqe = s.getD m dPqe := by
  by_cases h1 : n ≤ 2 * i + 1
  · rw [down, if_pos h1]
  · rw [down, if_neg h1]
    have hlb := child_lb s i n
    have hub := child_ub s i n h1
    by_cases hless : Less s (child s i n) i
    · rw [if_pos hless,
        down_untouched (Swap s i (child s i n)) (child s i n) n m hm,
        getD_Swap_other s i (child s i n) m (by omega) (by omega)]
    · rw [if_neg hless]
termination_by n - i
decreasing_by
  have hlb := child_lb s i n
  have hub := child_ub s i n h1
  omega

theorem Fix_length (s : List Pqe) (i : Int) (s2 : List Pqe) (h : Fix s i = some s2) :
    s2.length = s.length := by
  unfold Fix at h
  by_cases h1 : i = -1
  · rw [if_pos h1] at h
    cases h
    rfl
  · rw [if_neg h1] at h
    by_cases h2 : i < 0
    · rw [if_pos h2] at h
      cases h
    · rw [if_neg h2] at h
      by_cases h3 : i.toNat < (down s i.toNat s.length).2
      · rw [if_pos h3] at h
        cases h
        rw [down_length]
      · rw [if_neg h3] at h
        rw [up_length _ _ _ h, down_length]

theorem Fix_perm (s : List Pqe) (i : Int) (s2 : List Pqe) (h : Fix s i = some s2) :
    List.Perm (s2.map pl) (s.map pl) := by
  unfold Fix at h
  by_cases h1 : i = -1
  · rw [if_pos h1] at h
    cases h
    exact List.Perm.refl _
  · rw [if_neg h1] at h
    by_cases h2 : i < 0
    · rw [if_pos h2] at h
      cases h
    · rw [if_neg h2] at h
      by_cases h3 : i.toNat < (down s i.toNat s.length).2
      · rw [if_pos h3] at h
        cases h
        exact down_perm s i.toNat s.length (le_refl _)
      · rw [if_neg h3] at h
        exact (up_perm _ _ _ h).trans (down_perm s i.toNat s.length (le_refl _))

theorem Fix_IdxOk (s : List Pqe) (i : Int) (s2 : List Pqe) (h : Fix s i = some s2)
    (hidx : IdxOk s) : IdxOk s2 := by
  unfold Fix at h
  by_cases h1 : i = -1
  · rw [if_pos h1] at h
    cases h
    exact hidx
  · rw [if_neg h1] at h
    by_cases h2 : i < 0
    · rw [if_pos h2] at h
      cases h
    · rw [if_neg h2] at h
      by_cases h3 : i.toNat < (down s i.toNat s.length).2
      · rw [if_pos h3] at h
        cases h
        exact down_IdxOk s i.toNat s.length hidx
      · rw [if_neg h3] at h
        exact up_IdxOk _ _ _ h (down_IdxOk s i.toNat s.length hidx)

theorem initAux_IdxOk (s : List Pqe) (n : Nat) (k : Nat) (h : IdxOk s) :
    IdxOk (initAux s n k) := by
  induction k generalizing s with
  | zero => exact h
  | succ k ih => exact ih _ (down_IdxOk s k n h)

/-- Correctness of the sift-up pass: if every non-root position except
`j` respects its parent, and the parent of `j` is already no larger than
`j`'s children, then `up` restores the full heap property. -/
theorem up_spec (s : List Pqe) (j : Nat) (hj : j < s.length)
    (H1 : ∀ m, m < s.length → 0 < m → m ≠ j → kOf s ((m - 1) / 2) ≤ kOf s m)
    (H2 : 0 < j → ∀ c, c < s.length → (c - 1) / 2 = j →
      kOf s ((j - 1) / 2) ≤ kOf s c) :
    ∃ s2, up s j = some s2 ∧ IsHeap s2 := by
  revert hj H1 H2
  induction j using Nat.strong_induction_on generalizing s with
  | _ j ih =>
    intro hj H1 H2
    by_cases h0 : j = 0
    · subst h0
      refine ⟨s, by rw [up, if_pos rfl], ?_⟩
      intro m hm hm0
      exact H1 m hm hm0 (by omega)
    · rw [up, if_neg h0, if_neg (by omega : ¬ s.length ≤ j)]
      by_cases hless : Less s j ((j - 1) / 2)
      · rw [if_pos hless]
        have hij : (j - 1) / 2 < j := by omega
        have hil : (j - 1) / 2 < s.length := by omega
        have hlen1 : (Swap s ((j - 1) / 2) j).length = s.length := Swap_length s _ j
        have hkj : kOf (Swap s ((j - 1) / 2) j) j = kOf s ((j - 1) / 2) :=
          kOf_Swap_right s _ j hj
        have hki : kOf (Swap s ((j - 1) / 2) j) ((j - 1) / 2) = kOf s j :=
          kOf_Swap_left s _ j (by omega) hil
        have hko : ∀ m, m ≠ (j - 1) / 2 → m ≠ j →
            kOf (Swap s ((j - 1) / 2) j) m = kOf s m :=
          fun m h1 h2 => kOf_Swap_other s _ j m h1 h2
        have H1' : ∀ m, m < (Swap s ((j - 1) / 2) j).length → 0 < m → m ≠ (j - 1) / 2 →
            kOf (Swap s ((j - 1) / 2) j) ((m - 1) / 2) ≤ kOf (Swap s ((j - 1) / 2) j) m := by
          intro m hm hm0 hmi
          rw [hlen1] at hm
          by_cases hmj : m = j
          · rw [hmj, hki, hkj]
            exact le_of_lt hless
          · by_cases hpm : (m - 1) / 2 = j
            · rw [hpm, hkj, hko m hmi hmj]
              exact H2 (by omega) m hm hpm
            · by_cases hpmi : (m - 1) / 2 = (j - 1) / 2
              · rw [hpmi, hki, hko m hmi hmj]
                have e1 := H1 m hm hm0 hmj
                rw [hpmi] at e1
                have e2 : kOf s j < kOf s ((j - 1) / 2) := hless
                omega
              · rw [hko m hmi hmj, hko ((m - 1) / 2) hpmi hpm]
                exact H1 m hm hm0 hmj
        have H2' : 0 < (j - 1) / 2 → ∀ c, c < (Swap s ((j - 1) / 2) j).length →
            (c - 1) / 2 = (j - 1) / 2 →
            kOf (Swap s ((j - 1) / 2) j) (((j - 1) / 2 - 1) / 2)
              ≤ kOf (Swap s ((j - 1) / 2) j) c := by
          intro hi0 c hc hpc
          rw [hlen1] at hc
          have hpi : ((j - 1) / 2 - 1) / 2 ≠ (j - 1) / 2 := by omega
          have hpij : ((j - 1) / 2 - 1) / 2 ≠ j := by omega
          rw [hko _ hpi hpij]
          by_cases hcj : c = j
          · rw [hcj, hkj]
            exact H1 ((j - 1) / 2) hil hi0 (by omega)
          · have hci : c ≠ (j - 1) / 2 := by omega
            rw [hko c hci hcj]
            have e1 := H1 ((j - 1) / 2) hil hi0 (by omega)
            have e2 := H1 c hc (by omega) hcj
            rw [hpc] at e2
            omega
        exact ih ((j - 1) / 2) (by omega) (Swap s ((j - 1) / 2) j)
          (by rw [hlen1]; omega) H1' H2'
      · rw [if_neg hless]
        refine ⟨s, rfl, ?_⟩
        intro m hm hm0
        by_cases hmj : m = j
        · subst hmj
          exact le_of_not_lt hless
        · exact H1 m hm hm0 hmj

/-- Correctness of the sift-down pass within the first `n` positions: if
every position except `i` (and the edges leaving `i`) respects its
parent, and `i`'s parent is already no larger than `i`'s children, then
`down` either does not move (leaving the sequence unchanged with `i`
already no larger than its children) or restores the heap property on
the first `n` positions. -/
theorem down_spec (s : List Pqe) (i n : Nat) (hn : n ≤ s.length) (hi : i < n)
    (H1 : ∀ m, m < n → 0 < m → m ≠ i → (m - 1) / 2 ≠ i →
      kOf s ((m - 1) / 2) ≤ kOf s m)
    (H2 : 0 < i → ∀ c, c < n → (c - 1) / 2 = i → kOf s ((i - 1) / 2) ≤ kOf s c) :
    i ≤ (down s i n).2 ∧
    ((down s i n).2 = i → (down s i n).1 = s ∧
      ∀ c, c < n → (c - 1) / 2 = i → kOf s i ≤ kOf s c) ∧
    (i < (down s i n).2 → IsHeapN (down s i n).1 n) := by
  by_cases h1 : n ≤ 2 * i + 1
  · rw [down, if_pos h1]
    refine ⟨le_refl i, fun _ => ⟨rfl, fun c hc hpc => ?_⟩, fun hlt => absurd hlt (by omega)⟩
    have hcase : c = i := by omega
    rw [hcase]
  · have hlb := child_lb s i n
    have hub := child_ub s i n h1
    have hcp := child_parent s i n
    rw [down, if_neg h1]
    by_cases hless : Less s (child s i n) i
    · rw [if_pos hless]
      have hcl : child s i n < s.length := by omega
      have hil : i < s.length := by omega
      have hlen1 : (Swap s i (child s i n)).length = s.length := Swap_length s i _
      have hkj : kOf (Swap s i (child s i n)) (child s i n) = kOf s i :=
        kOf_Swap_right s i _ hcl
      have hki : kOf (Swap s i (child s i n)) i = kOf s (child s i n) :=
        kOf_Swap_left s i _ (by omega) hil
      have hko : ∀ m, m ≠ i → m ≠ child s i n →
          kOf (Swap s i (child s i n)) m = kOf s m :=
        fun m ha hb => kOf_Swap_other s i _ m ha hb
      -- hypotheses for the recursive call at the child position
      have H1' : ∀ m, m < n → 0 < m → m ≠ child s i n → (m - 1) / 2 ≠ child s i n →
          kOf (Swap s i (child s i n)) ((m - 1) / 2)
            ≤ kOf (Swap s i (child s i n)) m := by
        intro m hm hm0 hmj hpmj
        by_cases hmi : m = i
        · have hpi : (i - 1) / 2 ≠ i := by omega
          have hpij : (i - 1) / 2 ≠ child s i n := by omega
          rw [hmi, hko _ hpi hpij, hki]
          exact H2 (by omega) (child s i n) hub hcp
        · by_cases hpmi : (m - 1) / 2 = i
          · -- m is the sibling of the chosen child
            rw [hpmi, hki, hko m hmi hmj]
            have hsib : (m = 2 * i + 1 ∨ m = 2 * i + 2) := by omega
            rcases hsib with hs1 | hs1
            · have := child_min_left s i n
              rw [← hs1] at this
              exact this
            · have := child_min_right s i n (by omega)
              rw [← hs1] at this
              exact this
          · rw [hko m hmi hmj, hko ((m - 1) / 2) hpmi hpmj]
            exact H1 m hm hm0 hmi hpmi
      have H2' : 0 < child s i n → ∀ c, c < n → (c - 1) / 2 = child s i n →
          kOf (Swap s i (child s i n)) ((child s i n - 1) / 2)
            ≤ kOf (Swap s i (child s i n)) c := by
        intro hj0 c hc hpc
        rw [hcp, hki]
        have hcc : c ≠ i := by omega
        have hccj : c ≠ child s i n := by omega
        rw [hko c hcc hccj]
        have := H1 c hc (by omega) hcc (by omega)
        rw [hpc] at this
        omega
      have ihr := down_spec (Swap s i (child s i n)) (child s i n) n
        (by rw [hlen1]; exact hn) hub H1' H2'
      obtain ⟨ihr1, ihr2, ihr3⟩ := ihr
      refine ⟨by omega, fun hcon => absurd hcon (by omega), fun _ => ?_⟩
      by_cases hmoved : child s i n < (down (Swap s i (child s i n)) (child s i n) n).2
      · exact ihr3 hmoved
      · have heqi : (down (Swap s i (child s i n)) (child s i n) n).2 = child s i n := by
          omega
        obtain ⟨hseq, hcb⟩ := ihr2 heqi
        rw [hseq]
        -- the single swap already restored the heap on the first n positions
        intro m hm hm0
        by_cases hmj : m = child s i n
        · rw [hmj, hcp, hki, hkj]
          exact le_of_lt hless
        · by_cases hpmj : (m - 1) / 2 = child s i n
          · rw [hpmj]
            exact hcb m hm hpmj
          · by_cases hmi : m = i
            · have hpi : (i - 1) / 2 ≠ i := by omega
              have hpij : (i - 1) / 2 ≠ child s i n := by omega
              rw [hmi, hko _ hpi hpij, hki]
              exact H2 (by omega) (child s i n) hub hcp
            · by_cases hpmi : (m - 1) / 2 = i
              · rw [hpmi, hki, hko m hmi hmj]
                have hsib : (m = 2 * i + 1 ∨ m = 2 * i + 2) := by omega
                rcases hsib with hs1 | hs1
                · have := child_min_left s i n
                  rw [← hs1] at this
                  exact this
                · have := child_min_right s i n (by omega)
                  rw [← hs1] at this
                  exact this
              · rw [hko m hmi hmj, hko ((m - 1) / 2) hpmi hpmj]
                exact H1 m hm hm0 hmi hpmi
    · rw [if_neg hless]
      refine ⟨le_refl i, fun _ => ⟨rfl, fun c hc hpc => ?_⟩,
        fun hlt => absurd hlt (by omega)⟩
      have hcform : c = i ∨ c = 2 * i + 1 ∨ c = 2 * i + 2 := by omega
      have hnl : kOf s i ≤ kOf s (child s i n) := le_of_not_lt hless
      rcases hcform with hc1 | hc1 | hc1
      · rw [hc1]
      · have := child_min_left s i n
        rw [← hc1] at this
        omega
      · have := child_min_right s i n (by omega)
        rw [← hc1] at this
        omega
termination_by n - i
decreasing_by
  have hlb2 := child_lb s i n
  have hub2 := child_ub s i n h1
  omega

/-- Correctness of `heap.Fix` at a resident index `i`: if the heap
property holds everywhere except possibly on the edges touching `i`, and
`i`'s parent is already no larger than `i`'s children, then `Fix`
succeeds and restores the heap property. -/
theorem Fix_spec (s : List Pqe) (i : Nat) (hi : i < s.length)
    (F1 : ∀ m, m < s.length → 0 < m → m ≠ i → (m - 1) / 2 ≠ i →
      kOf s ((m - 1) / 2) ≤ kOf s m)
    (F2 : 0 < i → ∀ c, c < s.length → (c - 1) / 2 = i →
      kOf s ((i - 1) / 2) ≤ kOf s c) :
    ∃ s2, Fix s (i : Int) = some s2 ∧ IsHeap s2 := by
  obtain ⟨hd1, hd2, hd3⟩ := down_spec s i s.length (le_refl _) hi F1 F2
  unfold Fix
  rw [if_neg (by omega : ¬ (i : Int) = -1), if_neg (by omega : ¬ (i : Int) < 0),
    Int.toNat_natCast]
  by_cases h3 : i < (down s i s.length).2
  · rw [if_pos h3]
    refine ⟨_, rfl, ?_⟩
    have hlen := down_length s i s.length
    intro m hm hm0
    rw [hlen] at hm
    exact hd3 h3 m hm hm0
  · rw [if_neg h3]
    have heq : (down s i s.length).2 = i := by omega
    obtain ⟨hseq, hcb⟩ := hd2 heq
    rw [hseq]
    refine up_spec s i hi ?_ F2
    intro m hm hm0 hmi
    by_cases hpm : (m - 1) / 2 = i
    · rw [hpm]
      exact hcb m hm hpm
    · exact F1 m hm hm0 hmi hpm

theorem getD_append_lt (l1 l2 : List α) (m : Nat) (d : α) (h : m < l1.length) :
    (l1 ++ l2).getD m d = l1.getD m d := by
  simp [List.getD_eq_getElem?_getD, List.getElem?_append_left h]

theorem getD_append_self (l1 : List α) (e d : α) :
    (l1 ++ [e]).getD l1.length d = e := by
  simp [List.getD_eq_getElem?_getD, List.getElem?_append_right (le_refl l1.length)]

theorem kOf_append_lt (s : List Pqe) (e : Pqe) (m : Nat) (h : m < s.length) :
    kOf (s ++ [e]) m = kOf s m := by
  unfold kOf
  rw [getD_append_lt _ _ _ _ h]

/-- `Add` on a heap: it succeeds, grows the sequence by one, adds the
payload `(f, f.tm)`, and preserves both invariants. -/
theorem Add_spec (s : List Pqe) (f : Frame) (hh : IsHeap s) :
    ∃ s2, Add s f = some s2 ∧ s2.length = s.length + 1 ∧
      List.Perm (s2.map pl) ((f, f.tm) :: s.map pl) ∧
      (IdxOk s → IdxOk s2) ∧ IsHeap s2 := by
  unfold Add
  have hlen1 : (s ++ [({ val := f, orderBy := f.tm, idx := (s.length : Int) } : Pqe)]).length
      = s.length + 1 := by
    simp
  have hF := Fix_spec (s ++ [({ val := f, orderBy := f.tm, idx := (s.length : Int) } : Pqe)])
    s.length (by omega) ?_ ?_
  · obtain ⟨s2, heq, hheap⟩ := hF
    refine ⟨s2, heq, ?_, ?_, ?_, hheap⟩
    · rw [Fix_length _ _ _ heq, hlen1]
    · refine (Fix_perm _ _ _ heq).trans ?_
      rw [List.map_append]
      exact List.perm_append_singleton _ _
    · intro hidx
      refine Fix_IdxOk _ _ _ heq ?_
      intro m hm
      rw [hlen1] at hm
      by_cases hms : m = s.length
      · rw [hms, getD_append_self]
      · rw [getD_append_lt _ _ _ _ (by omega)]
        exact hidx m (by omega)
  · intro m hm hm0 hmi hpmi
    rw [hlen1] at hm
    have hmlt : m < s.length := by omega
    have hplt : (m - 1) / 2 < s.length := by omega
    rw [kOf_append_lt _ _ _ hmlt, kOf_append_lt _ _ _ hplt]
    exact hh m hmlt hm0
  · intro h0 c hc hpc
    rw [hlen1] at hc
    omega

theorem kOf_set_ne (s : List Pqe) (i m : Nat) (e : Pqe) (h : m ≠ i) :
    kOf (s.set i e) m = kOf s m := by
  unfold kOf
  rw [getD_set_ne _ _ _ _ _ (fun hh => h hh.symm)]

/-- `Update` at a resident position `i` on a valid queue: it succeeds,
replaces the entry's payload with `(v, v.tm)` in place, and restores
both invariants. -/
theorem Update_spec (s : List Pqe) (i : Nat) (v : Frame) (hh : IsHeap s)
    (hidx : IdxOk s) (hi : i < s.length) :
    ∃ s2, Update s i v = some s2 ∧ s2.length = s.length ∧
      List.Perm (s2.map pl)
        ((s.set i { s.getD i dPqe with val := v, orderBy := v.tm }).map pl) ∧
      IdxOk s2 ∧ IsHeap s2 := by
  unfold Update
  rw [hidx i hi]
  have hlen1 : (s.set i { s.getD i dPqe with val := v, orderBy := v.tm }).length
      = s.length := by
    simp
  have hidx1 : IdxOk (s.set i { s.getD i dPqe with val := v, orderBy := v.tm }) := by
    intro m hm
    rw [hlen1] at hm
    by_cases hms : m = i
    · rw [hms, getD_set_eq _ _ _ _ (by omega)]
      exact hidx i hi
    · rw [getD_set_ne _ _ _ _ _ (fun hc => hms hc.symm)]
      exact hidx m hm
  have hF := Fix_spec (s.set i { s.getD i dPqe with val := v, orderBy := v.tm })
    i (by omega) ?_ ?_
  · obtain ⟨s2, heq, hheap⟩ := hF
    exact ⟨s2, heq, by rw [Fix_length _ _ _ heq, hlen1], Fix_perm _ _ _ heq,
      Fix_IdxOk _ _ _ heq hidx1, hheap⟩
  · intro m hm hm0 hmi hpmi
    rw [hlen1] at hm
    rw [kOf_set_ne _ _ _ _ hmi, kOf_set_ne _ _ _ _ hpmi]
    exact hh m hm hm0
  · intro h0 c hc hpc
    rw [hlen1] at hc
    have hci : c ≠ i := by omega
    have hpii : (i - 1) / 2 ≠ i := by omega
    rw [kOf_set_ne _ _ _ _ hci, kOf_set_ne _ _ _ _ hpii]
    have e1 := hh i hi h0
    have e2 := hh c hc (by omega)
    rw [hpc] at e2
    omega

/-- In a heap, the root key is minimal among the first `n` keys. -/
theorem root_min (s : List Pqe) (n : Nat) (hh : IsHeapN s n) (j : Nat) (hj : j < n) :
    kOf s 0 ≤ kOf s j := by
  induction j using Nat.strong_induction_on with
  | _ j ih =>
    by_cases h0 : j = 0
    · rw [h0]
    · have hp := hh j hj (by omega)
      have hq := ih ((j - 1) / 2) (by omega) (by omega)
      omega

theorem kOf_take (l : List Pqe) (n m : Nat) (h : m < n) : kOf (l.take n) m = kOf l m := by
  unfold kOf
  rw [getD_take _ _ _ _ h]

theorem IdxOk_take (l : List Pqe) (n : Nat) (h : IdxOk l) : IdxOk (l.take n) := by
  intro m hm
  rw [List.length_take] at hm
  rw [getD_take _ _ _ _ (by omega)]
  exact h m (by omega)

theorem drop_last (l : List α) (n : Nat) (d : α) (h : l.length = n + 1) :
    l.drop n = [l.getD n d] := by
  apply List.ext_getElem?
  intro k
  rw [List.getElem?_drop]
  cases k with
  | zero =>
    simp [List.getD_eq_getElem?_getD, List.getElem?_eq_getElem (show n < l.length by omega)]
  | succ k =>
    rw [List.getElem?_eq_none (by omega)]
    rfl

theorem singleton_eq (l : List α) (d : α) (h : l.length = 1) : l = [l.getD 0 d] := by
  have := drop_last l 0 d h
  simpa using this

/-- `heap.Pop` on a non-empty heap: it returns the root entry (the
minimum), marks it detached, shrinks the sequence by one, and preserves
both invariants; the old payload multiset is the popped payload plus the
new payload multiset. -/
theorem heapPop_spec (s : List Pqe) (hh : IsHeap s) (hne : ¬ s.length = 0) :
    ∃ e s2, heapPop s = some (e, s2) ∧
      e.orderBy = kOf s 0 ∧ e.idx = -1 ∧
      s2.length = s.length - 1 ∧ IsHeap s2 ∧ (IdxOk s → IdxOk s2) ∧
      List.Perm (s.map pl) (pl e :: s2.map pl) := by
  unfold heapPop
  rw [if_neg hne]
  refine ⟨_, _, rfl, ?_, rfl, ?_, ?_, ?_, ?_⟩
  · -- the popped entry is the old root
    show ({ (down (Swap s 0 (s.length - 1)) 0 (s.length - 1)).1.getD (s.length - 1) dPqe
        with idx := -1 } : Pqe).orderBy = kOf s 0
    rw [down_untouched _ _ _ _ (le_refl _), getD_Swap_right s 0 (s.length - 1) (by omega)]
    rfl
  · rw [List.length_take, down_length, Swap_length]
    omega
  · -- heap property of the shrunk sequence
    intro m hm hm0
    rw [List.length_take, down_length, Swap_length] at hm
    have hmn : m < s.length - 1 := by omega
    rw [kOf_take _ _ _ hmn, kOf_take _ _ _ (by omega)]
    by_cases hone : s.length = 1
    · omega
    · have hd := down_spec (Swap s 0 (s.length - 1)) 0 (s.length - 1)
        (by rw [Swap_length]; omega) (by omega) ?_ ?_
      · obtain ⟨hd1, hd2, hd3⟩ := hd
        by_cases hmov : 0 < (down (Swap s 0 (s.length - 1)) 0 (s.length - 1)).2
        · exact hd3 hmov m hmn hm0
        · obtain ⟨hseq, hcb⟩ := hd2 (by omega)
          rw [hseq]
          by_cases hpm : (m - 1) / 2 = 0
          · rw [hpm]
            exact hcb m hmn hpm
          · rw [kOf_Swap_other s 0 (s.length - 1) m (by omega) (by omega),
              kOf_Swap_other s 0 (s.length - 1) ((m - 1) / 2) hpm (by omega)]
            exact hh m (by omega) hm0
      · intro m2 hm2 hm20 hm2i hpm2i
        rw [kOf_Swap_other s 0 (s.length - 1) m2 (by omega) (by omega),
          kOf_Swap_other s 0 (s.length - 1) ((m2 - 1) / 2) hpm2i (by omega)]
        exact hh m2 (by omega) hm20
      · intro h0
        exact absurd h0 (by omega)
  · -- the index invariant of the shrunk sequence
    intro hidx
    exact IdxOk_take _ _ (down_IdxOk _ _ _ (IdxOk_Swap s 0 (s.length - 1) hidx))
  · -- payload permutation
    have hperm1 : List.Perm (s.map pl) ((Swap s 0 (s.length - 1)).map pl) :=
      (pl_map_Swap s 0 (s.length - 1) (by omega) (by omega)).symm
    have hperm2 : List.Perm ((Swap s 0 (s.length - 1)).map pl)
        ((down (Swap s 0 (s.length - 1)) 0 (s.length - 1)).1.map pl) :=
      (down_perm _ 0 (s.length - 1) (by rw [Swap_length]; omega)).symm
    have hsplit : (down (Swap s 0 (s.length - 1)) 0 (s.length - 1)).1
        = (down (Swap s 0 (s.length - 1)) 0 (s.length - 1)).1.take (s.length - 1)
          ++ [(down (Swap s 0 (s.length - 1)) 0 (s.length - 1)).1.getD (s.length - 1) dPqe] := by
      conv_lhs => rw [← List.take_append_drop (s.length - 1)
        (down (Swap s 0 (s.length - 1)) 0 (s.length - 1)).1]
      rw [drop_last _ _ dPqe (by rw [down_length, Swap_length]; omega)]
    refine (hperm1.trans hperm2).trans ?_
    conv_lhs => rw [hsplit]
    rw [List.map_append]
    refine (List.perm_append_singleton _ _).trans ?_
    have hple : pl ((down (Swap s 0 (s.length - 1)) 0 (s.length - 1)).1.getD (s.length - 1) dPqe)
        = pl ({ (down (Swap s 0 (s.length - 1)) 0 (s.length - 1)).1.getD (s.length - 1) dPqe
            with idx := -1 } : Pqe) := rfl
    rw [← hple]

theorem map_orderBy_eq (l : List Pqe) : l.map Pqe.orderBy = (l.map pl).map Prod.snd := by
  rw [List.map_map]
  rfl

theorem key_mem_le (s : List Pqe) (hh : IsHeap s) (y : Int)
    (hy : y ∈ s.map Pqe.orderBy) : kOf s 0 ≤ y := by
  obtain ⟨a, ha, rfl⟩ := List.mem_map.mp hy
  obtain ⟨i, hi⟩ := List.mem_iff_getElem?.mp ha
  have hilen : i < s.length := by
    by_contra hc
    rw [List.getElem?_eq_none (by omega)] at hi
    cases hi
  have hk : kOf s i = a.orderBy := by
    unfold kOf
    rw [List.getD_eq_getElem?_getD, hi]
    rfl
  rw [← hk]
  exact root_min s s.length hh i hilen

/-- Draining a heap with repeated `heap.Pop` yields the keys in
non-decreasing order, and the popped payloads are exactly the payloads
that were in the queue. -/
theorem popAll_spec (s : List Pqe) (hh : IsHeap s) :
    List.Sorted (· ≤ ·) ((popAll s).map Pqe.orderBy) ∧
    List.Perm ((popAll s).map pl) (s.map pl) := by
  by_cases hz : s.length = 0
  · have hnil : s = [] := List.length_eq_zero.mp hz
    subst hnil
    rw [popAll]
    exact ⟨List.sorted_nil, List.Perm.refl _⟩
  · obtain ⟨e, s2, heq, hkey, hidx, hlen2, hheap2, _, hperm⟩ := heapPop_spec s hh hz
    have hrec := popAll_spec s2 hheap2
    have hunfold : popAll s = e :: popAll s2 := by
      rw [popAll, heq]
    rw [hunfold]
    constructor
    · rw [List.map_cons, List.sorted_cons]
      refine ⟨?_, hrec.1⟩
      intro b hb
      rw [map_orderBy_eq] at hb
      have hb2 : b ∈ (s2.map pl).map Prod.snd := (hrec.2.map Prod.snd).mem_iff.mp hb
      have hb3 : b ∈ s.map Pqe.orderBy := by
        rw [map_orderBy_eq]
        refine (hperm.map Prod.snd).mem_iff.mpr ?_
        rw [List.map_cons]
        exact List.mem_cons_of_mem _ hb2
      rw [hkey]
      exact key_mem_le s hh b hb3
    · rw [List.map_cons]
      exact (List.Perm.cons (pl e) hrec.2).trans hperm.symm
termination_by s.length
decreasing_by omega

/-- `Add` over a list of frames keeps the invariants and appends the new
payloads to the payload multiset. -/
theorem addAll_spec (fs : List Frame) (s : List Pqe) (hh : IsHeap s) (hidx : IdxOk s) :
    ∃ s2, addAll fs s = some s2 ∧ IsHeap s2 ∧ IdxOk s2 ∧
      List.Perm (s2.map pl) (s.map pl ++ fs.map (fun f => (f, f.tm))) := by
  induction fs generalizing s with
  | nil =>
    refine ⟨s, rfl, hh, hidx, ?_⟩
    simp
  | cons f rest ih =>
    obtain ⟨s1, heq1, hlen1, hperm1, hidx1, hheap1⟩ := Add_spec s f hh
    obtain ⟨s2, heq2, hheap2, hidx2, hperm2⟩ := ih s1 hheap1 (hidx1 hidx)
    refine ⟨s2, ?_, hheap2, hidx2, ?_⟩
    · rw [addAll, heq1]
      exact heq2
    · refine hperm2.trans ?_
      refine ((hperm1.append_right (rest.map (fun f => (f, f.tm)))).trans ?_)
      rw [List.map_cons]
      exact (List.perm_middle).symm

end PQ

/-! ## Remaining ring-buffer corollaries -/

theorem readAndMaybeAdvance_inv (b : FrameRingBuf) (p : List FramePtr) (adv : Bool)
    (hinv : RingInv b) :
    ∃ r, readAndMaybeAdvance b p adv = some r ∧ RingInv r.2.2.2 := by
  by_cases hp : p.length = 0
  · exact ⟨_, readAndMaybeAdvance_nil b adv p hp, hinv⟩
  · by_cases hr : b.Readable = 0
    · exact ⟨_, readAndMaybeAdvance_empty b p adv hp hr, hinv⟩
    · obtain ⟨p2, heq, _, _, _⟩ := readAndMaybeAdvance_spec b p adv hinv hp hr
      refine ⟨_, heq, ?_⟩
      obtain ⟨hlen, hrd, hbeg⟩ := hinv
      cases adv
      · exact ⟨hlen, hrd, hbeg⟩
      · refine ⟨hlen, ?_, ?_⟩
        · show b.Readable - min p.length b.Readable ≤ b.N
          omega
        · intro hN
          show (b.Beg + min p.length b.Readable) % b.N < b.N
          exact Nat.mod_lt _ (by omega)

theorem Advance_isSome (b : FrameRingBuf) (hN : 0 < b.N) (n : Int) :
    (Advance b n).isSome := by
  unfold Advance
  by_cases h1 : n ≤ 0
  · rw [if_pos h1]
    rfl
  · rw [if_neg h1, if_neg (by omega : ¬ b.N = 0)]
    rfl

theorem TwoContig_wrap_panics (b : FrameRingBuf) (hlen : b.A.length = b.N)
    (hwrap : b.N < b.Beg + b.Readable) (mc : Bool) : TwoContig b mc = none := by
  unfold TwoContig
  rw [if_neg (by omega), slice?_none b.A b.Beg (b.Beg + b.Readable) (by omega)]

/-! ## Claims about the ring buffer -/

/-- C3 (amended): for a buffer with free capacity `c = N - Readable`,
`RingWriteFrames` of a request of length `c+1` returns `n = c` and
`io.ErrShortWrite`; of a request `0 < r ≤ c` returns `n = r` and no
error; and with `c = 0` and `r > 0` it returns `n = 0` and the same
`io.ErrShortWrite` value (the code has no distinct `BufferFull` error;
the full-buffer case is distinguishable only by `n = 0`). -/
theorem C3_short_write_boundary (b : FrameRingBuf) (p : List FramePtr) (hinv : RingInv b) :
    (p.length = b.N - b.Readable + 1 →
      ∃ b2, RingWriteFrames b p = some (b.N - b.Readable, some IOErr.errShortWrite, b2)) ∧
    (0 < p.length → p.length ≤ b.N - b.Readable →
      ∃ b2, RingWriteFrames b p = some (p.length, none, b2)) ∧
    (b.N - b.Readable = 0 → 0 < p.length →
      RingWriteFrames b p = some (0, some IOErr.errShortWrite, b)) := by
  refine ⟨?_, ?_, ?_⟩
  · intro hlen
    obtain ⟨b2, heq, _⟩ := RingWriteFrames_spec b p hinv
    refine ⟨b2, ?_⟩
    rw [heq]
    have e1 : min p.length (b.N - b.Readable) = b.N - b.Readable := by omega
    have e2 : b.N - b.Readable < p.length := by omega
    rw [e1, if_pos e2]
  · intro h0 hle
    obtain ⟨b2, heq, _⟩ := RingWriteFrames_spec b p hinv
    refine ⟨b2, ?_⟩
    rw [heq]
    have e1 : min p.length (b.N - b.Readable) = p.length := by omega
    have e2 : ¬ (b.N - b.Readable < p.length) := by omega
    rw [e1, if_neg e2]
  · intro hc h0
    rw [RingWriteFrames, ringWriteLoop, dif_neg (by omega : ¬ p.length = 0), dif_pos hc]

/-- C3 counterexample to the claim as stated: the specification assigns
the distinct statuses `BufferFull` (free capacity 0) and `ShortWrite`
(partial write) to these two inputs, but the code returns the *same*
error value `io.ErrShortWrite` in both cases, so no reading of the
returned status can realise the claimed distinction. -/
theorem C3_counterexample :
    (RingWriteFrames fullBuf [none]).map (fun r => (r.1, r.2.1))
      = some (0, some IOErr.errShortWrite) ∧
    (RingWriteFrames partBuf [none, none]).map (fun r => (r.1, r.2.1))
      = some (1, some IOErr.errShortWrite) ∧
    specWriteStatus (fullBuf.N - fullBuf.Readable) 1 = SpecWriteStatus.bufferFull ∧
    specWriteStatus (partBuf.N - partBuf.Readable) 2 = SpecWriteStatus.shortWrite ∧
    SpecWriteStatus.bufferFull ≠ SpecWriteStatus.shortWrite := by
  refine ⟨?_, ?_, by decide, by decide, by decide⟩
  · obtain ⟨b2, heq, _⟩ := RingWriteFrames_spec fullBuf [none] (by decide)
    rw [heq]
    rfl
  · obtain ⟨b2, heq, _⟩ := RingWriteFrames_spec partBuf [none, none] (by decide)
    rw [heq]
    rfl

theorem C3_short_write_boundary_witness :
    RingInv partBuf ∧
    ((([none, none, none] : List FramePtr).length = partBuf.N - partBuf.Readable + 1 →
      ∃ b2, RingWriteFrames partBuf [none, none, none]
        = some (partBuf.N - partBuf.Readable, some IOErr.errShortWrite, b2)) ∧
    (0 < ([none, none, none] : List FramePtr).length →
      ([none, none, none] : List FramePtr).length ≤ partBuf.N - partBuf.Readable →
      ∃ b2, RingWriteFrames partBuf [none, none, none]
        = some (([none, none, none] : List FramePtr).length, none, b2)) ∧
    (partBuf.N - partBuf.Readable = 0 → 0 < ([none, none, none] : List FramePtr).length →
      RingWriteFrames partBuf [none, none, none]
        = some (0, some IOErr.errShortWrite, partBuf))) :=
  ⟨by decide, C3_short_write_boundary partBuf [none, none, none] (by decide)⟩

/-- C6: every ring-buffer operation — construction, `RingWriteFrames`,
`RingReadFrames`, `RingReadWithoutAdvance`, `Advance`, `Reset`, `Adopt` —
preserves the invariant `0 ≤ Readable ≤ N` and `0 ≤ Beg < N` (when
`N > 0`), i.e. `RingInv`; the valid slots are the circular range
`[Beg, Beg+Readable) mod N` captured by `readableSlots`.  (`Advance`
completes whenever `N > 0`; an `N = 0` buffer makes its `% b.N` panic,
which is the `none` case.) -/
theorem C6_ring_invariant_preserved (b : FrameRingBuf) (hinv : RingInv b) :
    (∀ nsz, RingInv (NewFrameRingBuf nsz)) ∧
    (∀ p, ∃ r, RingWriteFrames b p = some r ∧ RingInv r.2.2) ∧
    (∀ p, ∃ r, RingReadFrames b p = some r ∧ RingInv r.2.2.2) ∧
    (∀ p, ∃ r, RingReadWithoutAdvance b p = some r ∧ RingInv r.2.2.2) ∧
    (∀ n b2, Advance b n = some b2 → RingInv b2) ∧
    (0 < b.N → ∀ n, (Advance b n).isSome) ∧
    RingInv (Reset b) ∧
    (∀ me, RingInv (Adopt b me)) := by
  obtain ⟨hlen, hrd, hbeg⟩ := hinv
  refine ⟨?_, ?_, ?_, ?_, ?_, ?_, ?_, ?_⟩
  · intro nsz
    exact ⟨by simp [NewFrameRingBuf], by simp [NewFrameRingBuf], fun h => h⟩
  · intro p
    obtain ⟨b2, heq, hinv2, _⟩ := RingWriteFrames_spec b p ⟨hlen, hrd, hbeg⟩
    exact ⟨_, heq, hinv2⟩
  · intro p
    exact readAndMaybeAdvance_inv b p true ⟨hlen, hrd, hbeg⟩
  · intro p
    exact readAndMaybeAdvance_inv b p false ⟨hlen, hrd, hbeg⟩
  · intro n b2 h
    exact Advance_inv b n ⟨hlen, hrd, hbeg⟩ b2 h
  · intro hN n
    exact Advance_isSome b hN n
  · exact ⟨hlen, Nat.zero_le _, fun h => h⟩
  · intro me
    unfold Adopt
    by_cases hbig : b.N < me.length
    · rw [if_pos hbig]
      exact ⟨rfl, le_refl _, fun h => h⟩
    · rw [if_neg hbig]
      refine ⟨?_, ?_, ?_⟩
      · show (goCopy b.A me).2.length = b.N
        unfold goCopy
        rw [length_setSeg]
        exact hlen
      · show me.length ≤ b.N
        omega
      · intro hN
        show 0 < b.N
        exact hN

theorem C6_ring_invariant_preserved_witness :
    RingInv bufWitness ∧
    ((∀ nsz, RingInv (NewFrameRingBuf nsz)) ∧
    (∀ p, ∃ r, RingWriteFrames bufWitness p = some r ∧ RingInv r.2.2) ∧
    (∀ p, ∃ r, RingReadFrames bufWitness p = some r ∧ RingInv r.2.2.2) ∧
    (∀ p, ∃ r, RingReadWithoutAdvance bufWitness p = some r ∧ RingInv r.2.2.2) ∧
    (∀ n b2, Advance bufWitness n = some b2 → RingInv b2) ∧
    (0 < bufWitness.N → ∀ n, (Advance bufWitness n).isSome) ∧
    RingInv (Reset bufWitness) ∧
    (∀ me, RingInv (Adopt bufWitness me))) :=
  ⟨by decide, C6_ring_invariant_preserved bufWitness (by decide)⟩

/-- C7: `readAndMaybeAdvance` (the shared body of `RingReadFrames` and
`RingReadWithoutAdvance`) returns `n = 0` with `io.EOF` when the buffer
is empty and the output slice is not; returns `n = 0` with no error when
the output slice has length zero (even on an empty buffer); and
otherwise copies exactly `min (len out) Readable` slots — the oldest
readable slots, in order — into the front of `out` and returns that
count with no error. -/
theorem C7_read_spec (b : FrameRingBuf) (p : List FramePtr) (adv : Bool)
    (hinv : RingInv b) :
    (b.Readable = 0 → p.length ≠ 0 →
      readAndMaybeAdvance b p adv = some (0, some IOErr.eof, p, b)) ∧
    (p.length = 0 → readAndMaybeAdvance b p adv = some (0, none, p, b)) ∧
    (p.length ≠ 0 → b.Readable ≠ 0 → ∃ p2 b2,
      readAndMaybeAdvance b p adv = some (min p.length b.Readable, none, p2, b2) ∧
      p2.length = p.length ∧
      (∀ m, m < min p.length b.Readable →
        p2.getD m none = (readableSlots b).getD m none) ∧
      (∀ m, min p.length b.Readable ≤ m → p2.getD m none = p.getD m none)) ∧
    RingReadFrames b p = readAndMaybeAdvance b p true ∧
    RingReadWithoutAdvance b p = readAndMaybeAdvance b p false := by
  refine ⟨?_, ?_, ?_, rfl, rfl⟩
  · intro hr hp
    exact readAndMaybeAdvance_empty b p adv hp hr
  · intro hp
    exact readAndMaybeAdvance_nil b adv p hp
  · intro hp hr
    obtain ⟨p2, heq, hplen, hcontent, hrest⟩ := readAndMaybeAdvance_spec b p adv hinv hp hr
    refine ⟨p2, _, heq, hplen, ?_, hrest⟩
    intro m hm
    rw [getD_readableSlots b m (by omega)]
    exact hcontent m hm

theorem C7_read_spec_witness :
    RingInv bufWitness ∧
    ((bufWitness.Readable = 0 → ([none, none] : List FramePtr).length ≠ 0 →
      readAndMaybeAdvance bufWitness [none, none] true
        = some (0, some IOErr.eof, [none, none], bufWitness)) ∧
    (([none, none] : List FramePtr).length = 0 →
      readAndMaybeAdvance bufWitness [none, none] true
        = some (0, none, [none, none], bufWitness)) ∧
    (([none, none] : List FramePtr).length ≠ 0 → bufWitness.Readable ≠ 0 → ∃ p2 b2,
      readAndMaybeAdvance bufWitness [none, none] true
        = some (min ([none, none] : List FramePtr).length bufWitness.Readable,
            none, p2, b2) ∧
      p2.length = ([none, none] : List FramePtr).length ∧
      (∀ m, m < min ([none, none] : List FramePtr).length bufWitness.Readable →
        p2.getD m none = (readableSlots bufWitness).getD m none) ∧
      (∀ m, min ([none, none] : List FramePtr).length bufWitness.Readable ≤ m →
        p2.getD m none = ([none, none] : List FramePtr).getD m none)) ∧
    RingReadFrames bufWitness [none, none]
      = readAndMaybeAdvance bufWitness [none, none] true ∧
    RingReadWithoutAdvance bufWitness [none, none]
      = readAndMaybeAdvance bufWitness [none, none] false) :=
  ⟨by decide, C7_read_spec bufWitness [none, none] true (by decide)⟩

/-- C9: `Adopt` with a larger array takes ownership of it (capacity
becomes its length, `Beg = 0`, `Readable` = its length); with a
smaller-or-equal array it copies the contents to offset 0 of the
existing backing array, leaves the capacity unchanged, and sets
`Beg = 0`, `Readable` = its length. -/
theorem C9_adopt (b : FrameRingBuf) (me : List FramePtr) (hinv : RingInv b) :
    (b.N < me.length →
      Adopt b me = { A := me, N := me.length, Beg := 0, Readable := me.length }) ∧
    (me.length ≤ b.N →
      (Adopt b me).N = b.N ∧ (Adopt b me).Beg = 0 ∧
      (Adopt b me).Readable = me.length ∧ (Adopt b me).A.length = b.N ∧
      (∀ m, m < me.length → (Adopt b me).A.getD m none = me.getD m none) ∧
      (∀ m, me.length ≤ m → (Adopt b me).A.getD m none = b.A.getD m none)) := by
  obtain ⟨hlen, _, _⟩ := hinv
  constructor
  · intro hbig
    unfold Adopt
    rw [if_pos hbig]
  · intro hsmall
    unfold Adopt
    rw [if_neg (by omega)]
    refine ⟨rfl, rfl, rfl, ?_, ?_, ?_⟩
    · show (goCopy b.A me).2.length = b.N
      unfold goCopy
      rw [length_setSeg]
      exact hlen
    · intro m hm
      show (goCopy b.A me).2.getD m none = me.getD m none
      unfold goCopy
      have hcond : 0 ≤ m ∧ m < 0 + (me.take b.A.length).length ∧ m < b.A.length := by
        rw [List.length_take]
        omega
      rw [getD_setSeg, if_pos hcond, Nat.sub_zero, getD_take _ _ _ _ (by omega)]
    · intro m hm
      show (goCopy b.A me).2.getD m none = b.A.getD m none
      unfold goCopy
      rw [getD_setSeg, if_neg]
      intro hcc
      rw [List.length_take] at hcc
      omega

theorem C9_adopt_witness :
    RingInv bufWitness ∧
    ((bufWitness.N < (1 : Nat) →
      Adopt bufWitness [none] = { A := [none], N := 1, Beg := 0, Readable := 1 }) ∧
    ((1 : Nat) ≤ bufWitness.N →
      (Adopt bufWitness [none]).N = bufWitness.N ∧
      (Adopt bufWitness [none]).Beg = 0 ∧
      (Adopt bufWitness [none]).Readable = 1 ∧
      (Adopt bufWitness [none]).A.length = bufWitness.N ∧
      (∀ m, m < (1 : Nat) →
        (Adopt bufWitness [none]).A.getD m none = ([none] : List FramePtr).getD m none) ∧
      (∀ m, (1 : Nat) ≤ m →
        (Adopt bufWitness [none]).A.getD m none = bufWitness.A.getD m none))) := by
  refine ⟨by decide, ?_⟩
  have h := C9_adopt bufWitness [none] (by decide)
  simpa using h

/-- C10: `RingWriteFrames` leaves `Beg` and `N` unchanged and writes
only into free slots: every slot of the old readable region
`[Beg, Beg+Readable) mod N` is untouched, so the data that was readable
before the write is still readable, unchanged, in the same order (the
old readable sequence is a prefix of the new one). -/
theorem C10_write_frame_effect (b : FrameRingBuf) (p : List FramePtr) (hinv : RingInv b) :
    ∃ n err b2, RingWriteFrames b p = some (n, err, b2) ∧
      b2.Beg = b.Beg ∧ b2.N = b.N ∧ b2.Readable = b.Readable + n ∧
      (∀ t, t < b.Readable →
        b2.A.getD ((b.Beg + t) % b.N) none = b.A.getD ((b.Beg + t) % b.N) none) ∧
      (readableSlots b2).take b.Readable = readableSlots b := by
  obtain ⟨b2, heq, hinv2, hN2, hbeg2, hread2, hpres⟩ := RingWriteFrames_spec b p hinv
  refine ⟨_, _, b2, heq, hbeg2, hN2, hread2, hpres, ?_⟩
  apply List.ext_getElem?
  intro t
  rw [List.getElem?_take]
  by_cases ht : t < b.Readable
  · rw [if_pos ht]
    unfold readableSlots
    rw [List.getElem?_map, List.getElem?_map, List.getElem?_range
      (show t < b2.Readable by omega), List.getElem?_range (show t < b.Readable by omega)]
    rw [hbeg2, hN2]
    simp only [Option.map_some']
    rw [hpres t ht]
  · rw [if_neg ht, List.getElem?_eq_none
      (show (readableSlots b).length ≤ t by
        simp only [readableSlots, List.length_map, List.length_range]
        omega)]

theorem C10_write_frame_effect_witness :
    RingInv bufWitness ∧
    (∃ n err b2,
      RingWriteFrames bufWitness [some { tm := 9, payload := 9 }] = some (n, err, b2) ∧
      b2.Beg = bufWitness.Beg ∧ b2.N = bufWitness.N ∧
      b2.Readable = bufWitness.Readable + n ∧
      (∀ t, t < bufWitness.Readable →
        b2.A.getD ((bufWitness.Beg + t) % bufWitness.N) none
          = bufWitness.A.getD ((bufWitness.Beg + t) % bufWitness.N) none) ∧
      (readableSlots b2).take bufWitness.Readable = readableSlots bufWitness) :=
  ⟨by decide, C10_write_frame_effect bufWitness [some { tm := 9, payload := 9 }] (by decide)⟩

/-! ## Claims about the priority queue, and the `TwoContig` wraparound bug -/

/-- C2 counterexample to the claim as stated: on the empty queue,
neither `First` nor `heap.Pop` signals the specification's explicit
`EmptyQueue` error condition — both fail with the Go runtime
index-out-of-range panic (`pq.Seq[0]` resp. `Swap(0, -1)`), which is a
crash, not an error value returned to the caller. -/
theorem C2_counterexample :
    ¬ (PQ.First ([] : List PQ.Pqe) = Except.error PQ.PqFailure.emptyQueue ∧
       PQ.heapPopE ([] : List PQ.Pqe) = Except.error PQ.PqFailure.emptyQueue) := by
  intro hc
  have h1 := hc.1
  rw [PQ.First] at h1
  simp at h1

/-- C2 (amended): on the empty queue, `Pop` (`heap.Pop`) and `Peek`
(`First`) do not return a record: they fail with a runtime
index-out-of-range panic, not with an explicit `EmptyQueue` error
value. -/
theorem C2_empty_extraction_panics :
    PQ.First ([] : List PQ.Pqe) = Except.error PQ.PqFailure.indexOutOfRange ∧
    PQ.heapPopE ([] : List PQ.Pqe) = Except.error PQ.PqFailure.indexOutOfRange ∧
    PQ.heapPop ([] : List PQ.Pqe) = none :=
  ⟨rfl, rfl, rfl⟩

/-- C4: for every sequence of `Add` calls (starting from the empty
queue) followed by popping until empty, the sequence of `OrderBy` keys
of the popped entries is non-decreasing. -/
theorem C4_pop_order_nondecreasing (fs : List Frame) :
    ∃ s, PQ.addAll fs [] = some s ∧
      List.Sorted (· ≤ ·) ((PQ.popAll s).map PQ.Pqe.orderBy) := by
  obtain ⟨s, heq, hheap, _, _⟩ := PQ.addAll_spec fs []
    (by intro j hj h0; simp at hj) (by intro i hi; simp at hi)
  exact ⟨s, heq, (PQ.popAll_spec s hheap).1⟩

/-- C5: each queue operation keeps every resident entry's `Idx` equal to
its position in `Seq`, and the entry removed by `Pop` carries the
detached sentinel `Idx = -1`. -/
theorem C5_idx_invariant (s : List PQ.Pqe) (hidx : PQ.IdxOk s) :
    (∀ f s2, PQ.Add s f = some s2 → PQ.IdxOk s2) ∧
    (∀ i v s2, PQ.Update s i v = some s2 → PQ.IdxOk s2) ∧
    (∀ e s2, PQ.heapPop s = some (e, s2) → PQ.IdxOk s2 ∧ e.idx = -1) ∧
    PQ.IdxOk (PQ.Reinit s) := by
  refine ⟨?_, ?_, ?_, ?_⟩
  · intro f s2 h
    refine PQ.Fix_IdxOk _ _ _ h ?_
    intro m hm
    simp only [List.length_append, List.length_cons, List.length_nil] at hm
    by_cases hms : m = s.length
    · rw [hms, PQ.getD_append_self]
    · rw [PQ.getD_append_lt _ _ _ _ (by omega)]
      exact hidx m (by omega)
  · intro i v s2 h
    refine PQ.Fix_IdxOk _ _ _ h ?_
    intro m hm
    rw [List.length_set] at hm
    by_cases hms : m = i
    · rw [hms] at hm ⊢
      rw [getD_set_eq _ _ _ _ hm]
      exact hidx i hm
    · rw [getD_set_ne _ _ _ _ _ (fun hc => hms hc.symm)]
      exact hidx m hm
  · intro e s2 h
    by_cases hz : s.length = 0
    · rw [PQ.heapPop, if_pos hz] at h
      cases h
    · rw [PQ.heapPop, if_neg hz] at h
      simp only [Option.some.injEq, Prod.mk.injEq] at h
      obtain ⟨h1, h2⟩ := h
      constructor
      · rw [← h2]
        exact PQ.IdxOk_take _ _ (PQ.down_IdxOk _ _ _ (PQ.IdxOk_Swap s 0 (s.length - 1) hidx))
      · rw [← h1]
  · exact PQ.initAux_IdxOk s s.length (s.length / 2) hidx

theorem C5_idx_invariant_witness :
    PQ.IdxOk pqWitness ∧
    ((∀ f s2, PQ.Add pqWitness f = some s2 → PQ.IdxOk s2) ∧
    (∀ i v s2, PQ.Update pqWitness i v = some s2 → PQ.IdxOk s2) ∧
    (∀ e s2, PQ.heapPop pqWitness = some (e, s2) → PQ.IdxOk s2 ∧ e.idx = -1) ∧
    PQ.IdxOk (PQ.Reinit pqWitness)) :=
  ⟨by decide, C5_idx_invariant pqWitness (by decide)⟩

/-- C8: updating the entry resident at position `i` (handle `E`) to a
record with key `k2 = v.tm` makes the subsequent drain of the queue
sorted and made up of exactly the old payloads with `E`'s payload
replaced by `(v, k2)` — the pop order reflects `k2`, not the old key,
whether `k2` is smaller or larger. -/
theorem C8_update_reflects_new_key (s : List PQ.Pqe) (i : Nat) (v : Frame)
    (hh : PQ.IsHeap s) (hidx : PQ.IdxOk s) (hi : i < s.length) :
    ∃ s2, PQ.Update s i v = some s2 ∧
      List.Sorted (· ≤ ·) ((PQ.popAll s2).map PQ.Pqe.orderBy) ∧
      List.Perm ((PQ.popAll s2).map PQ.pl)
        ((s.set i { s.getD i PQ.dPqe with val := v, orderBy := v.tm }).map PQ.pl) := by
  obtain ⟨s2, heq, _, hperm, hidx2, hheap2⟩ := PQ.Update_spec s i v hh hidx hi
  have hp := PQ.popAll_spec s2 hheap2
  exact ⟨s2, heq, hp.1, hp.2.trans hperm⟩

theorem C8_update_reflects_new_key_witness :
    PQ.IsHeap pqWitness ∧ PQ.IdxOk pqWitness ∧ 1 < pqWitness.length ∧
    (∃ s2, PQ.Update pqWitness 1 { tm := 0, payload := 9 } = some s2 ∧
      List.Sorted (· ≤ ·) ((PQ.popAll s2).map PQ.Pqe.orderBy) ∧
      List.Perm ((PQ.popAll s2).map PQ.pl)
        ((pqWitness.set 1 { pqWitness.getD 1 PQ.dPqe with
            val := { tm := 0, payload := 9 }, orderBy := (0 : Int) }).map PQ.pl)) :=
  ⟨by decide, by decide, by decide,
    C8_update_reflects_new_key pqWitness 1 { tm := 0, payload := 9 }
      (by decide) (by decide) (by decide)⟩

/-- C1 (code bug): in the wraparound scenario — write two frames into a
capacity-2 buffer, read one, write one more, so that
`Beg + Readable > N` — `TwoContig` does not return the two readable
slices.  The source evaluates the slice expression
`b.A[b.Beg:(b.Beg+b.Readable)]` whose high bound `Beg+Readable = 3`
exceeds `cap(b.A) = N = 2`: a Go runtime panic ("slice bounds out of
range"), the `none` below. -/
theorem C1_wraparound_twoContig_panics :
    ∃ st, c1State = some st ∧ st.N < st.Beg + st.Readable ∧
      TwoContig st false = none := by
  obtain ⟨b1, he1, hinv1, hN1, hbeg1, hread1, _⟩ :=
    RingWriteFrames_spec (NewFrameRingBuf 2)
      [some { tm := 1, payload := 1 }, some { tm := 2, payload := 2 }] (by decide)
  have hN1' : b1.N = 2 := hN1
  have hbeg1' : b1.Beg = 0 := hbeg1
  have hread1' : b1.Readable = 2 := hread1
  have hc1 : c1State = (readAndMaybeAdvance b1 [none] true).bind (fun r2 =>
      (RingWriteFrames r2.2.2.2 [some { tm := 3, payload := 3 }]).map
        (fun r3 => r3.2.2)) := by
    unfold c1State
    rw [he1]
    rfl
  obtain ⟨p2, he2, _, _, _⟩ := readAndMaybeAdvance_spec b1 [none] true hinv1
    (by simp) (by omega)
  have hc2 : c1State = (RingWriteFrames
      { A := b1.A, N := b1.N, Beg := (b1.Beg + min ([none] : List FramePtr).length b1.Readable) % b1.N,
        Readable := b1.Readable - min ([none] : List FramePtr).length b1.Readable }
      [some { tm := 3, payload := 3 }]).map (fun r3 => r3.2.2) := by
    rw [hc1, he2]
    rfl
  have hinv3 : RingInv
      { A := b1.A, N := b1.N, Beg := (b1.Beg + min ([none] : List FramePtr).length b1.Readable) % b1.N,
        Readable := b1.Readable - min ([none] : List FramePtr).length b1.Readable } := by
    refine ⟨hinv1.1, ?_, ?_⟩
    · show b1.Readable - min ([none] : List FramePtr).length b1.Readable ≤ b1.N
      omega
    · intro _
      show (b1.Beg + min ([none] : List FramePtr).length b1.Readable) % b1.N < b1.N
      rw [hbeg1', hread1', hN1']
      decide
  obtain ⟨b4, he3, hinv4, hN4, hbeg4, hread4, _⟩ := RingWriteFrames_spec
      { A := b1.A, N := b1.N, Beg := (b1.Beg + min ([none] : List FramePtr).length b1.Readable) % b1.N,
        Readable := b1.Readable - min ([none] : List FramePtr).length b1.Readable }
      [some { tm := 3, payload := 3 }] hinv3
  have hc3 : c1State = some b4 := by
    rw [hc2, he3]
    rfl
  have hN4' : b4.N = 2 := by
    rw [hN4]
    exact hN1'
  have hbeg4' : b4.Beg = 1 := by
    rw [hbeg4]
    show (b1.Beg + min ([none] : List FramePtr).length b1.Readable) % b1.N = 1
    rw [hbeg1', hread1', hN1']
    decide
  have hread4' : b4.Readable = 2 := by
    rw [hread4]
    show b1.Readable - min ([none] : List FramePtr).length b1.Readable
      + min ([some { tm := 3, payload := 3 }] : List FramePtr).length
          (b1.N - (b1.Readable - min ([none] : List FramePtr).length b1.Readable)) = 2
    rw [hread1', hN1']
    decide
  refine ⟨b4, hc3, by omega, ?_⟩
  refine TwoContig_wrap_panics b4 ?_ (by omega) false
  rw [hinv4.1, hN4']
